import Mathlib

/-!
Verification of the constraint-propagation Sudoku solver of `sdk_board.py`.

The board code is parameterised by a configuration module (`sdk_config`,
not part of the sources) providing the symbol alphabet `CHOICES`, the
placeholder `UNKNOWN` and the block size `ROOT` (the grid is
`ROOT² × ROOT²`).  Symbols are modelled as natural numbers, candidate
sets as duplicate-free lists iterated in `CHOICES` order (Python sets
carry no specified order), and the mutable tile matrix as a flat list of
tiles indexed by `row * N + col`.
-/

namespace Sdk

/-- Modelled from the spec: the missing `sdk_config` module.  Per the spec it
fixes the block root, the symbol alphabet CHOICES (size N = root²) and the
distinguished UNKNOWN placeholder, all constant during a run. -/
structure Cfg where
  root : Nat
  choices : List Nat
  unknown : Nat
deriving DecidableEq, Repr

/-- NROWS = NCOLS = ROOT * ROOT. -/
def Cfg.n (c : Cfg) : Nat := c.root * c.root

/-- Well-formedness of a configuration, as described by the spec: a positive
board dimension, a duplicate-free alphabet of N symbols, and UNKNOWN not an
alphabet symbol. -/
structure Cfg.WF (c : Cfg) : Prop where
  root_pos : 0 < c.root
  nodup : c.choices.Nodup
  unk_not_choice : c.unknown ∉ c.choices
  length_choices : c.choices.length = c.n

/-- One tile of the grid: a current value and the candidate set. -/
structure Tile where
  value : Nat
  candidates : List Nat
deriving DecidableEq, Repr

/-- `Tile.set_value`: a symbol of CHOICES becomes the value with a singleton
candidate set; anything else resets the tile to UNKNOWN with the full
alphabet as candidates.  The result does not depend on the previous state of
the tile, so the tile argument is dropped. -/
def Tile.set_value (c : Cfg) (v : Nat) : Tile :=
  if v ∈ c.choices then { value := v, candidates := [v] }
  else { value := c.unknown, candidates := c.choices }

/-- `Tile.could_be`: membership test on the candidate set. -/
def Tile.could_be (t : Tile) (v : Nat) : Bool := decide (v ∈ t.candidates)

/-- The candidate difference `new_candidates` computed by `remove_candidates`:
the candidate set with every used value dropped. -/
def Tile.diff (t : Tile) (used : List Nat) : List Nat :=
  t.candidates.filter (fun x => decide (x ∉ used))

/-- `Tile.remove_candidates`: drop the used values from the candidate set.
If nothing was dropped, report no change; otherwise store the difference,
promoting the tile through `set_value` when a single candidate remains.
Returns the `progress` flag together with the updated tile. -/
def Tile.remove_candidates (c : Cfg) (t : Tile) (used : List Nat) : Bool × Tile :=
  if t.diff used = t.candidates then (false, t)
  else match t.diff used with
    | [v] => (true, Tile.set_value c v)
    | nc => (true, { t with candidates := nc })

/-- The board: the flattened NROWS × NCOLS tile matrix. -/
structure Board where
  tiles : List Tile
deriving DecidableEq, Repr

/-- Reading past the end of the tile list (never happens on well-formed
boards) yields an inert tile. -/
def defTile : Tile := { value := 0, candidates := [] }

def Board.getT (b : Board) (p : Nat) : Tile := b.tiles.getD p defTile

def Board.setT (b : Board) (p : Nat) (t : Tile) : Board := { tiles := b.tiles.set p t }

/-- The fresh board built by `Board.__init__`: every tile UNKNOWN with the
full candidate set. -/
def Board.init (c : Cfg) : Board :=
  { tiles := (List.range (c.n * c.n)).map
      (fun _ => { value := c.unknown, candidates := c.choices }) }

/-- The block group at block row `br` and block column `bc`: the tile
indices of the ROOT × ROOT sub-square, in row-major order. -/
def Cfg.block (c : Cfg) (br bc : Nat) : List Nat :=
  ((List.range c.root).map (fun r =>
    (List.range c.root).map (fun k =>
      (c.root * br + r) * c.n + (c.root * bc + k)))).flatten

/-- `Board.create_groups`: the ROOT × ROOT blocks in row-major order, then
the rows, then the columns; each group lists the flat indices of its tiles. -/
def Cfg.groups (c : Cfg) : List (List Nat) :=
  ((List.range c.root).map (fun br =>
      (List.range c.root).map (fun bc => c.block br bc))).flatten
  ++ (List.range c.n).map (fun r => (List.range c.n).map (fun k => r * c.n + k))
  ++ (List.range c.n).map (fun k => (List.range c.n).map (fun r => r * c.n + k))

/-- `Board.set_tiles`: write every position of the matrix through
`Tile.set_value`, reading the value matrix at the same coordinates. -/
def Board.set_tiles (c : Cfg) (b : Board) (vals : List (List Nat)) : Board :=
  (List.range c.n).foldl (fun bd r =>
    (List.range c.n).foldl (fun bd' k =>
      bd'.setT (r * c.n + k) (Tile.set_value c ((vals.getD r []).getD k c.unknown))) bd) b

/-- `Board.as_list`: the matrix of current values, row by row. -/
def Board.as_list (c : Cfg) (b : Board) : List (List Nat) :=
  (List.range c.n).map (fun r =>
    (List.range c.n).map (fun k => (b.getT (r * c.n + k)).value))

/-- `Board.is_consistent`: no group holds a duplicate non-UNKNOWN value
(`len(values) == len(set(values))` for every group). -/
def Board.is_consistent (c : Cfg) (b : Board) : Bool :=
  c.groups.all (fun g =>
    decide (((g.map (fun p => (b.getT p).value)).filter
      (fun v => decide (v ≠ c.unknown))).Nodup))

/-- `Board.is_complete`: no tile reachable through the groups is UNKNOWN. -/
def Board.is_complete (c : Cfg) (b : Board) : Bool :=
  c.groups.all (fun g => g.all (fun p => decide ((b.getT p).value ≠ c.unknown)))

/-- The known values of a group, collected before the inner loop of the
naked-single sweep. -/
def Board.usedValues (c : Cfg) (b : Board) (g : List Nat) : List Nat :=
  (g.map (fun p => (b.getT p).value)).filter (fun v => decide (v ≠ c.unknown))

/-- The body of the inner loop of the naked-single sweep: strip the used
values from the candidates of the tile at `p` when it is UNKNOWN. -/
def Board.nakedStep (c : Cfg) (used : List Nat) (ab : Board × Bool) (p : Nat) : Board × Bool :=
  let t := ab.1.getT p
  if t.value = c.unknown then
    let r := t.remove_candidates c used
    (ab.1.setT p r.2, ab.2 || r.1)
  else ab

/-- One group of the naked-single sweep: collect the known values of the
group, then strip them from the candidates of each UNKNOWN tile in turn. -/
def Board.nakedGroup (c : Cfg) (acc : Board × Bool) (g : List Nat) : Board × Bool :=
  g.foldl (Board.nakedStep c (Board.usedValues c acc.1 g)) acc

/-- `Board.naked_single`: sweep every group; the flag records whether any
candidate was eliminated. -/
def Board.naked_single (c : Cfg) (b : Board) : Board × Bool :=
  c.groups.foldl (Board.nakedGroup c) (b, false)

/-- The alphabet symbols not yet placed in a group, collected before the
value loop of the hidden-single sweep. -/
def Board.leftovers (c : Cfg) (b : Board) (g : List Nat) : List Nat :=
  c.choices.filter (fun v => decide (v ∉ g.map (fun p => (b.getT p).value)))

/-- The body of the value loop of the hidden-single sweep: if exactly one
tile of the group admits `v` as a candidate, set that tile to `v`. -/
def Board.hiddenStep (c : Cfg) (g : List Nat) (ab : Board × Bool) (v : Nat) : Board × Bool :=
  match g.filter (fun p => decide (v ∈ (ab.1.getT p).candidates)) with
  | [p] => (ab.1.setT p (Tile.set_value c v), true)
  | _ => ab

/-- One group of the hidden-single sweep: for every alphabet symbol not yet
placed in the group, if exactly one tile of the group still admits it, set
that tile to it. -/
def Board.hiddenGroup (c : Cfg) (acc : Board × Bool) (g : List Nat) : Board × Bool :=
  (Board.leftovers c acc.1 g).foldl (Board.hiddenStep c g) acc

/-- `Board.hidden_single`: sweep every group; the flag records whether any
value was set. -/
def Board.hidden_single (c : Cfg) (b : Board) : Board × Bool :=
  c.groups.foldl (Board.hiddenGroup c) (b, false)

/-- Number of candidate entries of a tile lying outside the alphabet. -/
def Tile.junk (c : Cfg) (t : Tile) : Nat :=
  (t.candidates.filter (fun x => decide (x ∉ c.choices))).length

/-- Tile weight for the propagation termination measure: junk candidates are
weighted so heavily that trading the last junk candidate for the full
alphabet (what `set_value` does on a junk symbol) still shrinks the weight. -/
def Tile.m (c : Cfg) (t : Tile) : Nat :=
  (c.choices.length + 1) * t.junk c + t.candidates.length

/-- Propagation termination measure of a board. -/
def Board.m (c : Cfg) (b : Board) : Nat := (b.tiles.map (Tile.m c)).sum

/-- `Board.propagate` with explicit fuel: run a naked-single sweep followed
by a hidden-single sweep, and repeat while the naked-single sweep reports
progress (the result of the hidden-single sweep is ignored, exactly as in
the source loop). -/
def Board.propagateF (c : Cfg) : Nat → Board → Board
  | 0, b => b
  | fuel + 1, b =>
    let r := b.naked_single c
    let b2 := (r.1.hidden_single c).1
    if r.2 then Board.propagateF c fuel b2 else b2

/-- `Board.propagate`: the fuel `m + 1` is always sufficient, because every
naked-single sweep that reports progress strictly shrinks the measure
(`propagateF_m_eq` below). -/
def Board.propagate (c : Cfg) (b : Board) : Board := Board.propagateF c (b.m c + 1) b

/-- One inspection of the `min_choice_tile` scan: an UNKNOWN tile replaces
the running minimum when its candidate count strictly improves on it;
`none` plays the role of the initial infinite minimum. -/
def Board.mctStep (c : Cfg) (b : Board) (acc : Option Nat) (p : Nat) : Option Nat :=
  let t := b.getT p
  if t.value = c.unknown then
    match acc with
    | none => some p
    | some q =>
      if t.candidates.length < (b.getT q).candidates.length then some p else acc
  else acc

/-- `Board.min_choice_tile`: scan the groups for UNKNOWN tiles, keeping the
tile whose candidate count strictly improves on the running minimum. -/
def Board.min_choice_tile (c : Cfg) (b : Board) : Option Nat :=
  c.groups.foldl (fun acc g => g.foldl (Board.mctStep c b) acc) none

/-- Number of UNKNOWN tiles, the recursion depth bound of the solver. -/
def Board.unknowns (c : Cfg) (b : Board) : Nat :=
  b.tiles.countP (fun t => decide (t.value = c.unknown))

/-- The candidate loop of `Board.solve`: try each remaining guess for the
tile at position `p` in turn, restoring the snapshot `saved` after every
failed recursive attempt. -/
def Board.guessLoop (c : Cfg) (recur : Board → Bool × Board) (saved : List (List Nat))
    (p : Nat) : List Nat → Board → Bool × Board
  | [], bd => (false, bd)
  | v :: vs, bd =>
    let bd1 := bd.setT p (Tile.set_value c v)
    let res := recur bd1
    if res.1 then res
    else Board.guessLoop c recur saved p vs (res.2.set_tiles c saved)

/-- `Board.solve` with explicit fuel bounding the recursion depth: propagate,
succeed on a complete grid, fail on an inconsistent one, and otherwise
guess-and-check on a minimum-candidate tile with snapshot/restore.  The
`none` branch is unreachable (an incomplete grid has an UNKNOWN tile, see
`min_choice_tile_of_not_complete`); the source would raise there. -/
def Board.solveF (c : Cfg) : Nat → Board → Bool × Board
  | 0, b => (false, b)
  | fuel + 1, b =>
    let b1 := b.propagate c
    if b1.is_complete c then (true, b1)
    else if !b1.is_consistent c then (false, b1)
    else
      match b1.min_choice_tile c with
      | none => (false, b1)
      | some p =>
        Board.guessLoop c (Board.solveF c fuel) (b1.as_list c) p ((b1.getT p).candidates) b1

/-- `Board.solve`: the fuel `unknowns + 1` is always sufficient, because
each guess makes one more tile known before recursing (`solveF_fuel_irrel`
below). -/
def Board.solve (c : Cfg) (b : Board) : Bool × Board :=
  Board.solveF c (b.unknowns c + 1) b

/-! ### Generic list bookkeeping -/

theorem sum_map_set {α : Type} (f : α → Nat) (d : α) :
    ∀ (l : List α) (p : Nat) (t : α), p < l.length →
      ((l.set p t).map f).sum + f (l.getD p d) = (l.map f).sum + f t
  | [], p, t, h => absurd h (by simp)
  | x :: xs, 0, t, _ => by simp [List.getD_cons_zero]; omega
  | x :: xs, p + 1, t, h => by
    have ih := sum_map_set f d xs p t (by simpa using h)
    simp only [List.set, List.map, List.sum_cons, List.getD_cons_succ]
    omega

theorem countP_set {α : Type} (q : α → Bool) (d : α) :
    ∀ (l : List α) (p : Nat) (t : α), p < l.length →
      (l.set p t).countP q + (if q (l.getD p d) then 1 else 0)
        = l.countP q + (if q t then 1 else 0)
  | [], p, t, h => absurd h (by simp)
  | x :: xs, 0, t, _ => by
    simp only [List.set, List.getD_cons_zero, List.countP_cons]
    by_cases hx : q x <;> by_cases ht : q t <;> simp only [hx, ht, if_true, if_false] <;> omega
  | x :: xs, p + 1, t, h => by
    have ih := countP_set q d xs p t (by simpa using h)
    simp only [List.set, List.countP_cons, List.getD_cons_succ]
    by_cases hx : q x <;> simp only [hx, if_true, if_false] <;> omega

theorem filter_length_lt {l : List Nat} {q : Nat → Bool} (h : l.filter q ≠ l) :
    (l.filter q).length < l.length := by
  have hsub := List.filter_sublist (p := q) l
  rcases Nat.lt_or_ge (l.filter q).length l.length with hlt | hge
  · exact hlt
  · exact absurd (hsub.eq_of_length (Nat.le_antisymm hsub.length_le hge)) h

/-! ### The propagation termination measure -/

theorem tile_m_set_value_choice {c : Cfg} {v : Nat} (hv : v ∈ c.choices) :
    (Tile.set_value c v).m c = 1 := by
  have hsv : Tile.set_value c v = { value := v, candidates := [v] } := by
    simp [Tile.set_value, hv]
  rw [hsv]
  simp [Tile.m, Tile.junk, hv]

theorem tile_m_set_value_junk {c : Cfg} {v : Nat} (hv : v ∉ c.choices) :
    (Tile.set_value c v).m c = c.choices.length := by
  have hsv : Tile.set_value c v = { value := c.unknown, candidates := c.choices } := by
    simp [Tile.set_value, hv]
  rw [hsv]
  simp [Tile.m, Tile.junk, List.filter_eq_nil_iff]

theorem remove_candidates_of_eq {c : Cfg} {t : Tile} {used : List Nat}
    (h : t.diff used = t.candidates) : t.remove_candidates c used = (false, t) := by
  unfold Tile.remove_candidates
  rw [if_pos h]

theorem remove_candidates_of_single {c : Cfg} {t : Tile} {used : List Nat} {v : Nat}
    (h : t.diff used = [v]) (hne : t.diff used ≠ t.candidates) :
    t.remove_candidates c used = (true, Tile.set_value c v) := by
  unfold Tile.remove_candidates
  rw [if_neg hne, h]

theorem remove_candidates_of_nil {c : Cfg} {t : Tile} {used : List Nat}
    (h : t.diff used = []) (hne : t.diff used ≠ t.candidates) :
    t.remove_candidates c used = (true, { t with candidates := [] }) := by
  unfold Tile.remove_candidates
  rw [if_neg hne, h]

theorem remove_candidates_of_big {c : Cfg} {t : Tile} {used : List Nat} {v w : Nat}
    {ws : List Nat} (h : t.diff used = v :: w :: ws) (hne : t.diff used ≠ t.candidates) :
    t.remove_candidates c used = (true, { t with candidates := v :: w :: ws }) := by
  unfold Tile.remove_candidates
  rw [if_neg hne, h]

theorem tile_m_remove_le (c : Cfg) (t : Tile) (used : List Nat) :
    ((t.remove_candidates c used).2.m c ≤ t.m c) ∧
      ((t.remove_candidates c used).1 = true → (t.remove_candidates c used).2.m c < t.m c) := by
  by_cases heq : t.diff used = t.candidates
  · rw [remove_candidates_of_eq heq]
    refine ⟨Nat.le_refl _, fun hfalse => ?_⟩
    simp at hfalse
  · have hlen : (t.diff used).length < t.candidates.length := filter_length_lt heq
    have hsubl : (t.diff used).Sublist t.candidates := List.filter_sublist t.candidates
    have hjunk : ((t.diff used).filter (fun x => decide (x ∉ c.choices))).length
        ≤ (t.candidates.filter (fun x => decide (x ∉ c.choices))).length :=
      (hsubl.filter _).length_le
    suffices h : (t.remove_candidates c used).2.m c < t.m c by
      exact ⟨Nat.le_of_lt h, fun _ => h⟩
    rcases hv : t.diff used with _ | ⟨v, vs⟩
    · rw [remove_candidates_of_nil hv heq]
      rw [hv] at hlen hjunk
      simp only [Tile.m, Tile.junk] at *
      simp only [List.filter_nil, List.length_nil] at *
      omega
    rcases vs with _ | ⟨w, ws⟩
    · rw [remove_candidates_of_single hv heq]
      by_cases hvc : v ∈ c.choices
      · rw [tile_m_set_value_choice hvc]
        rw [hv] at hlen
        simp only [List.length_cons, List.length_nil] at hlen
        simp only [Tile.m]
        omega
      · rw [tile_m_set_value_junk hvc]
        have hvt : v ∈ t.candidates := hsubl.mem (by rw [hv]; simp)
        have hjt : 1 ≤ t.junk c := by
          have hm : v ∈ t.candidates.filter (fun x => decide (x ∉ c.choices)) := by
            simp [List.mem_filter, hvt, hvc]
          simpa [Tile.junk] using List.length_pos_of_mem hm
        simp only [Tile.m]
        have := Nat.mul_le_mul_left (c.choices.length + 1) hjt
        omega
    · rw [remove_candidates_of_big hv heq]
      rw [hv] at hlen hjunk
      simp only [Tile.m, Tile.junk] at *
      have := Nat.mul_le_mul_left (c.choices.length + 1) hjunk
      omega

theorem m_setT_le {c : Cfg} {b : Board} {p : Nat} {t : Tile}
    (hle : t.m c ≤ (b.getT p).m c) : (b.setT p t).m c ≤ b.m c := by
  by_cases hp : p < b.tiles.length
  · have := sum_map_set (Tile.m c) defTile b.tiles p t hp
    simp only [Board.m, Board.setT, Board.getT] at *
    omega
  · simp [Board.m, Board.setT, List.set_eq_of_length_le (Nat.le_of_not_lt hp)]

theorem m_setT_lt {c : Cfg} {b : Board} {p : Nat} {t : Tile}
    (hlt : t.m c < (b.getT p).m c) (hp : p < b.tiles.length) :
    (b.setT p t).m c < b.m c := by
  have := sum_map_set (Tile.m c) defTile b.tiles p t hp
  simp only [Board.m, Board.setT, Board.getT] at *
  omega

theorem remove_candidates_of_nil_candidates {c : Cfg} {t : Tile} (h : t.candidates = [])
    (used : List Nat) : t.remove_candidates c used = (false, t) :=
  remove_candidates_of_eq (by simp [Tile.diff, h])

theorem getT_of_length_le {b : Board} {p : Nat} (h : b.tiles.length ≤ p) :
    b.getT p = defTile := by
  simp [Board.getT, List.getD, List.getElem?_eq_none h]

theorem nakedStep_m (c : Cfg) (used : List Nat) (ab : Board × Bool) (p : Nat) :
    ((Board.nakedStep c used ab p).1.m c ≤ ab.1.m c) ∧
      ((Board.nakedStep c used ab p).2 = true →
        ab.2 = true ∨ (Board.nakedStep c used ab p).1.m c < ab.1.m c) := by
  unfold Board.nakedStep
  by_cases hv : (ab.1.getT p).value = c.unknown
  · simp only [hv, if_true]
    have hrem := tile_m_remove_le c (ab.1.getT p) used
    refine ⟨m_setT_le hrem.1, ?_⟩
    intro h
    rcases Bool.or_eq_true_iff.mp h with h1 | h1
    · exact Or.inl h1
    · right
      have hp : p < ab.1.tiles.length := by
        by_contra hnp
        have hdef : ab.1.getT p = defTile := getT_of_length_le (Nat.le_of_not_lt hnp)
        have : (ab.1.getT p).remove_candidates c used = (false, ab.1.getT p) :=
          remove_candidates_of_nil_candidates (by rw [hdef]; rfl) used
        rw [this] at h1
        simp at h1
      exact m_setT_lt (hrem.2 h1) hp
  · simp only [hv, if_false]
    exact ⟨Nat.le_refl _, fun h => Or.inl h⟩

theorem hiddenStep_m_le (c : Cfg) (g : List Nat) (ab : Board × Bool) {v : Nat}
    (hv : v ∈ c.choices) : (Board.hiddenStep c g ab v).1.m c ≤ ab.1.m c := by
  unfold Board.hiddenStep
  split
  case h_1 p heq =>
    have hp : p ∈ g.filter (fun p => decide (v ∈ (ab.1.getT p).candidates)) := by
      rw [heq]; simp
    have hvp : v ∈ (ab.1.getT p).candidates := by
      have := List.of_mem_filter hp
      simpa using this
    apply m_setT_le
    rw [tile_m_set_value_choice hv]
    have : 1 ≤ (ab.1.getT p).candidates.length := List.length_pos_of_mem hvp
    simp only [Tile.m]
    omega
  case h_2 => exact Nat.le_refl _

/-- Generic fold lemma: a step that never increases the measure and is
strict whenever it newly raises the flag, folds to the same property. -/
theorem foldl_m_flag {α : Type} (c : Cfg) (F : Board × Bool → α → Board × Bool)
    (l : List α)
    (hF : ∀ ab x, x ∈ l → ((F ab x).1.m c ≤ ab.1.m c) ∧
      ((F ab x).2 = true → ab.2 = true ∨ (F ab x).1.m c < ab.1.m c)) :
    ∀ ab : Board × Bool,
      ((l.foldl F ab).1.m c ≤ ab.1.m c) ∧
      ((l.foldl F ab).2 = true → ab.2 = true ∨ (l.foldl F ab).1.m c < ab.1.m c) := by
  induction l with
  | nil => exact fun ab => ⟨Nat.le_refl _, fun h => Or.inl h⟩
  | cons x xs ih =>
    intro ab
    have hstep := hF ab x (by simp)
    have ihx := ih (fun ab' y hy => hF ab' y (by simp [hy])) (F ab x)
    simp only [List.foldl_cons]
    constructor
    · exact Nat.le_trans ihx.1 hstep.1
    · intro h
      rcases ihx.2 h with h1 | h1
      · rcases hstep.2 h1 with h2 | h2
        · exact Or.inl h2
        · exact Or.inr (Nat.lt_of_le_of_lt ihx.1 h2)
      · exact Or.inr (Nat.lt_of_lt_of_le h1 hstep.1)

/-- Generic fold lemma, measure part only. -/
theorem foldl_m_le {α : Type} (c : Cfg) (F : Board × Bool → α → Board × Bool)
    (l : List α) (hF : ∀ ab x, x ∈ l → (F ab x).1.m c ≤ ab.1.m c) :
    ∀ ab : Board × Bool, (l.foldl F ab).1.m c ≤ ab.1.m c := by
  induction l with
  | nil => exact fun ab => Nat.le_refl _
  | cons x xs ih =>
    intro ab
    exact Nat.le_trans (ih (fun ab' y hy => hF ab' y (by simp [hy])) (F ab x))
      (hF ab x (by simp))

theorem nakedGroup_m (c : Cfg) (acc : Board × Bool) (g : List Nat) :
    ((Board.nakedGroup c acc g).1.m c ≤ acc.1.m c) ∧
      ((Board.nakedGroup c acc g).2 = true →
        acc.2 = true ∨ (Board.nakedGroup c acc g).1.m c < acc.1.m c) :=
  foldl_m_flag c _ g (fun ab x _ => nakedStep_m c _ ab x) acc

theorem hiddenGroup_m_le (c : Cfg) (acc : Board × Bool) (g : List Nat) :
    (Board.hiddenGroup c acc g).1.m c ≤ acc.1.m c :=
  foldl_m_le c _ _ (fun ab _ hv =>
    hiddenStep_m_le c g ab (List.mem_of_mem_filter hv)) acc

theorem naked_single_m (c : Cfg) (b : Board) :
    ((b.naked_single c).1.m c ≤ b.m c) ∧
      ((b.naked_single c).2 = true → (b.naked_single c).1.m c < b.m c) := by
  have h := foldl_m_flag c (Board.nakedGroup c) c.groups
    (fun ab g _ => nakedGroup_m c ab g) (b, false)
  refine ⟨h.1, fun hf => ?_⟩
  rcases h.2 hf with h1 | h1
  · simp at h1
  · exact h1

theorem hidden_single_m_le (c : Cfg) (b : Board) :
    (b.hidden_single c).1.m c ≤ b.m c :=
  foldl_m_le c (Board.hiddenGroup c) c.groups
    (fun ab g _ => hiddenGroup_m_le c ab g) (b, false)

/-- The fuelled propagation loop does not depend on the fuel once the fuel
exceeds the measure: the source loop terminates. -/
theorem propagateF_congr (c : Cfg) :
    ∀ (f f' : Nat) (b : Board), b.m c < f → b.m c < f' →
      Board.propagateF c f b = Board.propagateF c f' b := by
  intro f
  induction f with
  | zero => intro f' b hf hf'; omega
  | succ g ih =>
    intro f' b hf hf'
    cases f' with
    | zero => omega
    | succ g' =>
      simp only [Board.propagateF]
      by_cases hpr : (b.naked_single c).2 = true
      · simp only [hpr, if_true]
        have hm1 : (b.naked_single c).1.m c < b.m c := (naked_single_m c b).2 hpr
        have hm2 : ((b.naked_single c).1.hidden_single c).1.m c ≤ (b.naked_single c).1.m c :=
          hidden_single_m_le c (b.naked_single c).1
        exact ih g' _ (by omega) (by omega)
      · simp [hpr]

/-- The recursion equation of `Board.propagate`, exactly the source loop:
one naked-single sweep, one hidden-single sweep, and a repeat while the
naked-single sweep reported progress. -/
theorem propagate_eq (c : Cfg) (b : Board) :
    b.propagate c = (if (b.naked_single c).2
      then (((b.naked_single c).1.hidden_single c).1.propagate c)
      else ((b.naked_single c).1.hidden_single c).1) := by
  conv_lhs => unfold Board.propagate Board.propagateF
  by_cases hpr : (b.naked_single c).2 = true
  · simp only [hpr, if_true]
    have hm1 : (b.naked_single c).1.m c < b.m c := (naked_single_m c b).2 hpr
    have hm2 : ((b.naked_single c).1.hidden_single c).1.m c ≤ (b.naked_single c).1.m c :=
      hidden_single_m_le c (b.naked_single c).1
    exact propagateF_congr c (b.m c) (((b.naked_single c).1.hidden_single c).1.m c + 1)
      (((b.naked_single c).1.hidden_single c).1) (by omega) (by omega)
  · simp [hpr]

/-! ### Reading and writing tiles -/

theorem length_setT (b : Board) (p : Nat) (t : Tile) :
    (b.setT p t).tiles.length = b.tiles.length := by
  simp [Board.setT]

theorem getT_setT_same {b : Board} {p : Nat} (t : Tile) (hp : p < b.tiles.length) :
    (b.setT p t).getT p = t := by
  simp [Board.setT, Board.getT, List.getD, List.getElem?_set_self', hp]

theorem getT_setT_ne {b : Board} {p q : Nat} (t : Tile) (h : q ≠ p) :
    (b.setT p t).getT q = b.getT q := by
  simp [Board.setT, Board.getT, List.getD, List.getElem?_set_ne (fun he => h he.symm)]

/-- Writing one tile per listed position, the tile depending only on the
position; both loops of `set_tiles` have this form. -/
def Board.writes (g : Nat → Tile) (l : List Nat) (b : Board) : Board :=
  l.foldl (fun bd i => bd.setT i (g i)) b

theorem writes_nil (g : Nat → Tile) (b : Board) : Board.writes g [] b = b := rfl

theorem writes_cons (g : Nat → Tile) (i : Nat) (l : List Nat) (b : Board) :
    Board.writes g (i :: l) b = Board.writes g l (b.setT i (g i)) := rfl

theorem writes_append (g : Nat → Tile) (l₁ l₂ : List Nat) (b : Board) :
    Board.writes g (l₁ ++ l₂) b = Board.writes g l₂ (Board.writes g l₁ b) := by
  simp [Board.writes, List.foldl_append]

theorem writes_length (g : Nat → Tile) :
    ∀ (l : List Nat) (b : Board), (Board.writes g l b).tiles.length = b.tiles.length
  | [], _ => rfl
  | i :: l, b => by rw [writes_cons, writes_length g l, length_setT]

theorem writes_getT_not_mem (g : Nat → Tile) :
    ∀ {l : List Nat} {q : Nat} (b : Board), q ∉ l →
      (Board.writes g l b).getT q = b.getT q
  | [], _, _, _ => rfl
  | i :: l, q, b, hq => by
    rw [writes_cons, writes_getT_not_mem g (b.setT i (g i)) (fun h => hq (by simp [h]))]
    exact getT_setT_ne _ (fun h => hq (by simp [h]))

theorem writes_getT_mem (g : Nat → Tile) :
    ∀ {l : List Nat} {q : Nat} (b : Board), q ∈ l → q < b.tiles.length →
      (Board.writes g l b).getT q = g q
  | [], q, b, hq, _ => absurd hq (by simp)
  | i :: l, q, b, hq, hlen => by
    rw [writes_cons]
    by_cases hql : q ∈ l
    · exact writes_getT_mem g _ hql (by rw [length_setT]; exact hlen)
    · have hqi : q = i := by rcases List.mem_cons.mp hq with h | h; exact h; exact absurd h hql
      subst hqi
      rw [writes_getT_not_mem g _ hql]
      exact getT_setT_same _ hlen

/-- The flat positions written by `set_tiles`, row by row. -/
def Cfg.posList (c : Cfg) : List Nat :=
  ((List.range c.n).map (fun r => (List.range c.n).map (fun k => r * c.n + k))).flatten

theorem mem_posList {c : Cfg} {q : Nat} : q ∈ c.posList ↔ q < c.n * c.n := by
  constructor
  · intro hq
    simp only [Cfg.posList, List.mem_flatten, List.mem_map] at hq
    obtain ⟨row, ⟨r, hr, hrow⟩, hqrow⟩ := hq
    subst hrow
    simp only [List.mem_map, List.mem_range] at hqrow hr
    obtain ⟨k, hk, hq⟩ := hqrow
    subst hq
    calc r * c.n + k < r * c.n + c.n := by omega
    _ = (r + 1) * c.n := by ring
    _ ≤ c.n * c.n := Nat.mul_le_mul_right _ (by omega)
  · intro hq
    have hn : 0 < c.n := by
      rcases Nat.eq_zero_or_pos c.n with h | h
      · rw [h] at hq; simp at hq
      · exact h
    simp only [Cfg.posList, List.mem_flatten, List.mem_map]
    refine ⟨(List.range c.n).map (fun k => q / c.n * c.n + k), ⟨q / c.n, ?_, rfl⟩, ?_⟩
    · simp only [List.mem_range]
      exact (Nat.div_lt_iff_lt_mul hn).mpr hq
    · simp only [List.mem_map, List.mem_range]
      refine ⟨q % c.n, Nat.mod_lt _ hn, ?_⟩
      rw [Nat.mul_comm]
      exact Nat.div_add_mod q c.n

theorem foldl_congr_mem {α β : Type} (l : List α) (F G : β → α → β)
    (h : ∀ b x, x ∈ l → F b x = G b x) : ∀ b, l.foldl F b = l.foldl G b := by
  induction l with
  | nil => intro b; rfl
  | cons x xs ih =>
    intro b
    simp only [List.foldl_cons]
    rw [h b x (by simp)]
    exact ih (fun b' y hy => h b' y (by simp [hy])) _

/-- `set_tiles` is the sequence of writes over `posList`, the written tile
being `set_value` of the matrix entry at the position's row and column. -/
theorem set_tiles_eq_writes (c : Cfg) (b : Board) (vals : List (List Nat)) :
    b.set_tiles c vals =
      Board.writes (fun q => Tile.set_value c ((vals.getD (q / c.n) []).getD (q % c.n) c.unknown))
        c.posList b := by
  unfold Board.set_tiles Cfg.posList
  generalize hg : (fun q => Tile.set_value c ((vals.getD (q / c.n) []).getD (q % c.n) c.unknown)) = g
  have hrow : ∀ (r : Nat) (bd : Board),
      (List.range c.n).foldl
        (fun bd' k => bd'.setT (r * c.n + k) (Tile.set_value c ((vals.getD r []).getD k c.unknown))) bd
      = Board.writes g ((List.range c.n).map (fun k => r * c.n + k)) bd := by
    intro r bd
    rw [Board.writes, List.foldl_map]
    apply foldl_congr_mem
    intro bd' k hk
    have hklt : k < c.n := List.mem_range.mp hk
    have hn : 0 < c.n := by omega
    have hdiv : (r * c.n + k) / c.n = r := by
      rw [Nat.mul_comm r c.n, Nat.mul_add_div hn, Nat.div_eq_of_lt hklt]
      omega
    have hmod : (r * c.n + k) % c.n = k := by
      rw [Nat.add_comm, Nat.add_mul_mod_self_right, Nat.mod_eq_of_lt hklt]
    rw [← hg]
    simp only [hdiv, hmod]
  have hmain : ∀ (rs : List Nat) (bd : Board),
      rs.foldl (fun bd0 r =>
        (List.range c.n).foldl
          (fun bd' k => bd'.setT (r * c.n + k) (Tile.set_value c ((vals.getD r []).getD k c.unknown))) bd0) bd
      = Board.writes g ((rs.map (fun r => (List.range c.n).map (fun k => r * c.n + k))).flatten) bd := by
    intro rs
    induction rs with
    | nil => intro bd; rfl
    | cons r rs ih =>
      intro bd
      simp only [List.foldl_cons, List.map_cons, List.flatten_cons]
      rw [writes_append, ← hrow r bd, ih]
  exact hmain (List.range c.n) b

theorem set_tiles_length (c : Cfg) (b : Board) (vals : List (List Nat)) :
    (b.set_tiles c vals).tiles.length = b.tiles.length := by
  rw [set_tiles_eq_writes]; exact writes_length _ _ _

theorem set_tiles_getT {c : Cfg} {b : Board} {q : Nat} (vals : List (List Nat))
    (hlen : b.tiles.length = c.n * c.n) (hq : q < c.n * c.n) :
    (b.set_tiles c vals).getT q
      = Tile.set_value c ((vals.getD (q / c.n) []).getD (q % c.n) c.unknown) := by
  rw [set_tiles_eq_writes]
  exact writes_getT_mem _ _ (mem_posList.mpr hq) (by omega)

/-! ### The tile invariant and its preservation -/

/-- Full well-formedness of a tile as maintained by the board operations:
the value is a symbol or the UNKNOWN placeholder, the candidates are
symbols, and a known tile carries exactly its value as sole candidate. -/
def TileOK (c : Cfg) (t : Tile) : Prop :=
  (t.value ∈ c.choices ∨ t.value = c.unknown) ∧
    (∀ x ∈ t.candidates, x ∈ c.choices) ∧
    (t.value ∈ c.choices → t.candidates = [t.value])

/-- The per-tile invariant exactly as the documentation states it:
a known value forces the singleton candidate set, an UNKNOWN value allows
any candidate set drawn from CHOICES. -/
def TileInv (c : Cfg) (t : Tile) : Prop :=
  (t.value ∈ c.choices → t.candidates = [t.value]) ∧
    (t.value = c.unknown → ∀ x ∈ t.candidates, x ∈ c.choices)

theorem TileOK.inv {c : Cfg} {t : Tile} (h : TileOK c t) : TileInv c t :=
  ⟨h.2.2, fun _ => h.2.1⟩

theorem set_value_of_choice {c : Cfg} {v : Nat} (hv : v ∈ c.choices) :
    Tile.set_value c v = { value := v, candidates := [v] } := by
  simp [Tile.set_value, hv]

theorem set_value_of_junk {c : Cfg} {v : Nat} (hv : v ∉ c.choices) :
    Tile.set_value c v = { value := c.unknown, candidates := c.choices } := by
  simp [Tile.set_value, hv]

theorem tileOK_set_value {c : Cfg} (hWF : c.WF) (v : Nat) :
    TileOK c (Tile.set_value c v) := by
  by_cases hv : v ∈ c.choices
  · rw [set_value_of_choice hv]
    refine ⟨Or.inl hv, ?_, fun _ => rfl⟩
    intro x hx
    simp at hx
    subst hx
    exact hv
  · rw [set_value_of_junk hv]
    exact ⟨Or.inr rfl, fun x hx => hx, fun hu => absurd hu hWF.unk_not_choice⟩

theorem tileOK_remove_candidates {c : Cfg} (hWF : c.WF) {t : Tile} (hOK : TileOK c t)
    (hunk : t.value = c.unknown) (used : List Nat) :
    TileOK c ((t.remove_candidates c used).2) := by
  have hsub : ∀ x ∈ t.diff used, x ∈ t.candidates := fun x hx =>
    List.mem_of_mem_filter hx
  have hnotchoice : t.value ∉ c.choices := by
    rw [hunk]; exact hWF.unk_not_choice
  by_cases heq : t.diff used = t.candidates
  · rw [remove_candidates_of_eq heq]; exact hOK
  rcases hd : t.diff used with _ | ⟨v, vs⟩
  · rw [remove_candidates_of_nil hd heq]
    exact ⟨hOK.1, by simp, fun hv => absurd hv hnotchoice⟩
  rcases vs with _ | ⟨w, ws⟩
  · rw [remove_candidates_of_single hd heq]
    exact tileOK_set_value hWF v
  · rw [remove_candidates_of_big hd heq]
    refine ⟨hOK.1, fun x hx => hOK.2.1 x (hsub x (by rw [hd]; exact hx)),
      fun hv => absurd hv hnotchoice⟩

/-- Well-formedness of a board: the tile matrix has its N² tiles and each
satisfies the tile invariant. -/
def Board.OK (c : Cfg) (b : Board) : Prop :=
  b.tiles.length = c.n * c.n ∧ ∀ t ∈ b.tiles, TileOK c t

theorem getT_mem {b : Board} {p : Nat} (hp : p < b.tiles.length) : b.getT p ∈ b.tiles := by
  rw [Board.getT, List.getD_eq_getElem _ _ hp]
  exact List.getElem_mem hp

theorem Board.OK.getTOK {c : Cfg} {b : Board} (h : Board.OK c b) {p : Nat}
    (hp : p < b.tiles.length) : TileOK c (b.getT p) :=
  h.2 _ (getT_mem hp)

theorem setT_out_of_range {b : Board} {p : Nat} (t : Tile) (h : b.tiles.length ≤ p) :
    b.setT p t = b := by
  simp [Board.setT, List.set_eq_of_length_le h]

theorem Board.OK.setTOK {c : Cfg} {b : Board} (h : Board.OK c b) {p : Nat} {t : Tile}
    (ht : TileOK c t) : Board.OK c (b.setT p t) := by
  refine ⟨by rw [length_setT]; exact h.1, ?_⟩
  intro x hx
  rcases List.mem_or_eq_of_mem_set hx with hx | rfl
  · exact h.2 x hx
  · exact ht

theorem OK_nakedStep {c : Cfg} (hWF : c.WF) (used : List Nat) {ab : Board × Bool}
    (h : Board.OK c ab.1) (p : Nat) : Board.OK c (Board.nakedStep c used ab p).1 := by
  unfold Board.nakedStep
  by_cases hv : (ab.1.getT p).value = c.unknown
  · simp only [hv, if_true]
    by_cases hp : p < ab.1.tiles.length
    · exact h.setTOK (tileOK_remove_candidates hWF (h.getTOK hp) hv used)
    · have hdef := getT_of_length_le (Nat.le_of_not_lt hp)
      rw [setT_out_of_range _ (Nat.le_of_not_lt hp)]
      exact h
  · simp only [hv, if_false]
    exact h

theorem OK_hiddenStep {c : Cfg} (hWF : c.WF) (g : List Nat) {ab : Board × Bool}
    (h : Board.OK c ab.1) (v : Nat) : Board.OK c (Board.hiddenStep c g ab v).1 := by
  unfold Board.hiddenStep
  split
  · exact h.setTOK (tileOK_set_value hWF v)
  · exact h

theorem foldl_preserves_ab {α : Type} (P : Board → Prop) (F : Board × Bool → α → Board × Bool)
    (l : List α) (hF : ∀ ab x, x ∈ l → P ab.1 → P (F ab x).1) :
    ∀ ab, P ab.1 → P (l.foldl F ab).1 := by
  induction l with
  | nil => exact fun ab h => h
  | cons x xs ih =>
    intro ab h
    exact ih (fun ab' y hy => hF ab' y (by simp [hy])) (F ab x) (hF ab x (by simp) h)

theorem OK_naked_single {c : Cfg} (hWF : c.WF) {b : Board} (h : Board.OK c b) :
    Board.OK c (b.naked_single c).1 :=
  foldl_preserves_ab (Board.OK c) (Board.nakedGroup c) c.groups
    (fun ab g _ hOK => foldl_preserves_ab (Board.OK c) _ g
      (fun _ p _ hOK' => OK_nakedStep hWF _ hOK' p) ab hOK) (b, false) h

theorem OK_hidden_single {c : Cfg} (hWF : c.WF) {b : Board} (h : Board.OK c b) :
    Board.OK c (b.hidden_single c).1 :=
  foldl_preserves_ab (Board.OK c) (Board.hiddenGroup c) c.groups
    (fun ab g _ hOK => foldl_preserves_ab (Board.OK c) _ _
      (fun _ v _ hOK' => OK_hiddenStep hWF g hOK' v) ab hOK) (b, false) h

theorem OK_propagateF {c : Cfg} (hWF : c.WF) :
    ∀ (f : Nat) {b : Board}, Board.OK c b → Board.OK c (Board.propagateF c f b)
  | 0, _, h => h
  | f + 1, b, h => by
    simp only [Board.propagateF]
    by_cases hpr : (b.naked_single c).2 = true
    · simp only [hpr, if_true]
      exact OK_propagateF hWF f (OK_hidden_single hWF (OK_naked_single hWF h))
    · simp [hpr]
      exact OK_hidden_single hWF (OK_naked_single hWF h)

theorem OK_propagate {c : Cfg} (hWF : c.WF) {b : Board} (h : Board.OK c b) :
    Board.OK c (b.propagate c) :=
  OK_propagateF hWF _ h

theorem OK_set_tiles {c : Cfg} (hWF : c.WF) {b : Board} (h : Board.OK c b)
    (vals : List (List Nat)) : Board.OK c (b.set_tiles c vals) := by
  rw [set_tiles_eq_writes]
  generalize c.posList = l
  induction l generalizing b with
  | nil => exact h
  | cons i l ih => exact ih (h.setTOK (tileOK_set_value hWF _))

theorem OK_init {c : Cfg} (hWF : c.WF) : Board.OK c (Board.init c) := by
  constructor
  · simp [Board.init]
  · intro t ht
    simp only [Board.init, List.mem_map] at ht
    obtain ⟨_, _, rfl⟩ := ht
    exact ⟨Or.inr rfl, fun x hx => hx, fun hv => absurd hv hWF.unk_not_choice⟩

theorem OK_guessLoop {c : Cfg} (hWF : c.WF) (recur : Board → Bool × Board)
    (hrec : ∀ b, Board.OK c b → Board.OK c (recur b).2)
    (saved : List (List Nat)) (p : Nat) :
    ∀ (vs : List Nat) {bd : Board}, Board.OK c bd →
      Board.OK c (Board.guessLoop c recur saved p vs bd).2
  | [], _, h => h
  | v :: vs, bd, h => by
    simp only [Board.guessLoop]
    by_cases hr : (recur (bd.setT p (Tile.set_value c v))).1 = true
    · simp only [hr, if_true]
      exact hrec _ (h.setTOK (tileOK_set_value hWF v))
    · simp only [hr, if_false]
      exact OK_guessLoop hWF recur hrec saved p vs
        (OK_set_tiles hWF (hrec _ (h.setTOK (tileOK_set_value hWF v))) saved)

theorem OK_solveF {c : Cfg} (hWF : c.WF) :
    ∀ (f : Nat) {b : Board}, Board.OK c b → Board.OK c (Board.solveF c f b).2
  | 0, _, h => h
  | f + 1, b, h => by
    simp only [Board.solveF]
    have h1 : Board.OK c (b.propagate c) := OK_propagate hWF h
    by_cases hc : (b.propagate c).is_complete c = true
    · simp [hc, h1]
    · simp only [hc, if_false, Bool.not_eq_true]
      by_cases hcons : (b.propagate c).is_consistent c = true
      · simp only [hcons, Bool.not_true, if_false, Bool.false_eq_true]
        cases hmin : (b.propagate c).min_choice_tile c with
        | none => simpa [hmin] using h1
        | some p =>
          simp only [hmin]
          exact OK_guessLoop hWF _ (fun b' hb' => OK_solveF hWF f hb') _ _ _ h1
      · simp only [hcons]
        simpa using h1

theorem OK_solve {c : Cfg} (hWF : c.WF) {b : Board} (h : Board.OK c b) :
    Board.OK c (b.solve c).2 :=
  OK_solveF hWF _ h

/-! ### Structure of the groups -/

theorem rc_div {c : Cfg} {r k : Nat} (hk : k < c.n) : (r * c.n + k) / c.n = r := by
  have hn : 0 < c.n := by omega
  rw [Nat.mul_comm r c.n, Nat.mul_add_div hn, Nat.div_eq_of_lt hk]
  omega

theorem rc_mod {c : Cfg} {r k : Nat} (hk : k < c.n) : (r * c.n + k) % c.n = k := by
  rw [Nat.add_comm, Nat.add_mul_mod_self_right, Nat.mod_eq_of_lt hk]

theorem rc_lt {c : Cfg} {r k : Nat} (hr : r < c.n) (hk : k < c.n) :
    r * c.n + k < c.n * c.n := by
  calc r * c.n + k < r * c.n + c.n := by omega
  _ = (r + 1) * c.n := by ring
  _ ≤ c.n * c.n := Nat.mul_le_mul_right _ (by omega)

theorem rc_lt_of_row_lt {c : Cfg} {r r' k k' : Nat} (hk : k < c.n) (hrr : r < r') :
    r * c.n + k < r' * c.n + k' := by
  have h1 : (r + 1) * c.n = r * c.n + c.n := by ring
  have h2 : (r + 1) * c.n ≤ r' * c.n := Nat.mul_le_mul_right _ (by omega)
  omega

theorem rc_inj {c : Cfg} {r k r' k' : Nat} (hk : k < c.n) (hk' : k' < c.n)
    (h : r * c.n + k = r' * c.n + k') : r = r' ∧ k = k' := by
  have h1 : r = r' := by
    rcases Nat.lt_trichotomy r r' with hlt | heq | hgt
    · exact absurd h (Nat.ne_of_lt (rc_lt_of_row_lt hk hlt))
    · exact heq
    · exact absurd h.symm (Nat.ne_of_lt (rc_lt_of_row_lt hk' hgt))
  constructor
  · exact h1
  · subst h1; omega

/-- Each of the three shapes of group a membership in `Cfg.groups` can take. -/
theorem mem_groups {c : Cfg} {g : List Nat} (hg : g ∈ c.groups) :
    (∃ br, br < c.root ∧ ∃ bc, bc < c.root ∧ g = c.block br bc) ∨
    (∃ r, r < c.n ∧ g = (List.range c.n).map (fun k => r * c.n + k)) ∨
    (∃ k, k < c.n ∧ g = (List.range c.n).map (fun r => r * c.n + k)) := by
  unfold Cfg.groups at hg
  rcases List.mem_append.mp hg with hg | hg
  · rcases List.mem_append.mp hg with hg | hg
    · left
      simp only [List.mem_flatten, List.mem_map] at hg
      obtain ⟨row, ⟨br, hbr, rfl⟩, hgrow⟩ := hg
      simp only [List.mem_map, List.mem_range] at hgrow
      obtain ⟨bc, hbc, rfl⟩ := hgrow
      exact ⟨br, List.mem_range.mp hbr, bc, hbc, rfl⟩
    · right; left
      simp only [List.mem_map, List.mem_range] at hg
      obtain ⟨r, hr, rfl⟩ := hg
      exact ⟨r, hr, rfl⟩
  · right; right
    simp only [List.mem_map, List.mem_range] at hg
    obtain ⟨k, hk, rfl⟩ := hg
    exact ⟨k, hk, rfl⟩

theorem mem_block {c : Cfg} {br bc q : Nat} :
    q ∈ c.block br bc ↔ ∃ r, r < c.root ∧ ∃ k, k < c.root ∧
      q = (c.root * br + r) * c.n + (c.root * bc + k) := by
  unfold Cfg.block
  simp only [List.mem_flatten, List.mem_map, List.mem_range]
  constructor
  · rintro ⟨row, ⟨r, hr, rfl⟩, hq⟩
    simp only [List.mem_map, List.mem_range] at hq
    obtain ⟨k, hk, rfl⟩ := hq
    exact ⟨r, hr, k, hk, rfl⟩
  · rintro ⟨r, hr, k, hk, rfl⟩
    exact ⟨_, ⟨r, hr, rfl⟩, by simp only [List.mem_map, List.mem_range]; exact ⟨k, hk, rfl⟩⟩

theorem block_coord_lt {c : Cfg} {bb i : Nat} (hb : bb < c.root) (hi : i < c.root) :
    c.root * bb + i < c.n := by
  unfold Cfg.n
  calc c.root * bb + i < c.root * bb + c.root := by omega
  _ = c.root * (bb + 1) := by ring
  _ ≤ c.root * c.root := Nat.mul_le_mul_left _ (by omega)

theorem groups_sub {c : Cfg} {g : List Nat} (hg : g ∈ c.groups) :
    ∀ q ∈ g, q < c.n * c.n := by
  intro q hq
  rcases mem_groups hg with ⟨br, hbr, bc, hbc, rfl⟩ | ⟨r, hr, rfl⟩ | ⟨k, hk, rfl⟩
  · obtain ⟨r, hr, k, hk, rfl⟩ := mem_block.mp hq
    exact rc_lt (block_coord_lt hbr hr) (block_coord_lt hbc hk)
  · simp only [List.mem_map, List.mem_range] at hq
    obtain ⟨k, hk, rfl⟩ := hq
    exact rc_lt hr hk
  · simp only [List.mem_map, List.mem_range] at hq
    obtain ⟨r, hr, rfl⟩ := hq
    exact rc_lt hr hk

theorem groups_nodup {c : Cfg} (hWF : c.WF) {g : List Nat} (hg : g ∈ c.groups) :
    g.Nodup := by
  have hn : 0 < c.n := by
    unfold Cfg.n
    have := hWF.root_pos
    exact Nat.mul_pos this this
  rcases mem_groups hg with ⟨br, hbr, bc, hbc, rfl⟩ | ⟨r, hr, rfl⟩ | ⟨k, hk, rfl⟩
  · unfold Cfg.block
    rw [List.nodup_flatten]
    constructor
    · intro s hs
      simp only [List.mem_map, List.mem_range] at hs
      obtain ⟨r, hr, rfl⟩ := hs
      refine (List.nodup_range c.root).map ?_
      intro k k' hkk
      simp only at hkk
      omega
    · rw [List.pairwise_map]
      refine (List.pairwise_lt_range c.root).imp ?_
      intro r r' hrr
      intro q hq hq'
      simp only [List.mem_map, List.mem_range] at hq hq'
      obtain ⟨k, hk, rfl⟩ := hq
      obtain ⟨k', hk', he⟩ := hq'
      have := rc_inj (c := c) (block_coord_lt hbc hk') (block_coord_lt hbc hk) he
      omega
  · refine (List.nodup_range c.n).map ?_
    intro k k' hkk
    simp only at hkk
    omega
  · refine (List.nodup_range c.n).map ?_
    intro r r' hrr
    simp only at hrr
    have : r * c.n = r' * c.n := by omega
    exact Nat.eq_of_mul_eq_mul_right hn this

theorem groups_cover {c : Cfg} {q : Nat} (hq : q < c.n * c.n) :
    ∃ g ∈ c.groups, q ∈ g := by
  have hn : 0 < c.n := by
    rcases Nat.eq_zero_or_pos c.n with h | h
    · rw [h] at hq; simp at hq
    · exact h
  refine ⟨(List.range c.n).map (fun k => q / c.n * c.n + k), ?_, ?_⟩
  · unfold Cfg.groups
    rw [List.mem_append]
    left
    rw [List.mem_append]
    right
    simp only [List.mem_map, List.mem_range]
    exact ⟨q / c.n, (Nat.div_lt_iff_lt_mul hn).mpr hq, rfl⟩
  · simp only [List.mem_map, List.mem_range]
    refine ⟨q % c.n, Nat.mod_lt _ hn, ?_⟩
    rw [Nat.mul_comm]
    exact Nat.div_add_mod q c.n

/-! ### Characterizations of the boolean checks -/

theorem is_complete_iff {c : Cfg} {b : Board} :
    b.is_complete c = true ↔ ∀ g ∈ c.groups, ∀ q ∈ g, (b.getT q).value ≠ c.unknown := by
  unfold Board.is_complete
  simp

theorem is_complete_iff_pos {c : Cfg} {b : Board} :
    b.is_complete c = true ↔ ∀ q < c.n * c.n, (b.getT q).value ≠ c.unknown := by
  rw [is_complete_iff]
  constructor
  · intro h q hq
    obtain ⟨g, hg, hqg⟩ := groups_cover hq
    exact h g hg q hqg
  · intro h g hg q hqg
    exact h q (groups_sub hg q hqg)

theorem is_consistent_iff {c : Cfg} {b : Board} :
    b.is_consistent c = true ↔ ∀ g ∈ c.groups,
      ((g.map (fun p => (b.getT p).value)).filter (fun v => decide (v ≠ c.unknown))).Nodup := by
  unfold Board.is_consistent
  simp

/-! ### Positional bookkeeping -/

theorem tiles_eq_map_range (b : Board) :
    b.tiles = (List.range b.tiles.length).map (fun p => b.getT p) := by
  refine List.ext_getElem (by simp) ?_
  intro i h1 h2
  rw [List.getElem_map, List.getElem_range]
  rw [Board.getT, List.getD_eq_getElem _ _ h1]

theorem unknowns_eq_countP_range {c : Cfg} (b : Board) :
    b.unknowns c = (List.range b.tiles.length).countP
      (fun p => decide ((b.getT p).value = c.unknown)) := by
  rw [Board.unknowns]
  conv_lhs => rw [tiles_eq_map_range b]
  rw [List.countP_map]
  rfl

theorem unknowns_congr {c : Cfg} {b b' : Board} (hlen : b.tiles.length = b'.tiles.length)
    (h : ∀ p < b.tiles.length, (b.getT p).value = (b'.getT p).value) :
    b.unknowns c = b'.unknowns c := by
  rw [unknowns_eq_countP_range, unknowns_eq_countP_range, hlen]
  apply List.countP_congr
  intro p hp
  rw [h p (by rw [hlen]; exact List.mem_range.mp hp)]

theorem as_list_getD {c : Cfg} (b : Board) {r k : Nat} (hr : r < c.n) (hk : k < c.n) :
    ((b.as_list c).getD r []).getD k c.unknown = (b.getT (r * c.n + k)).value := by
  have h1 : (b.as_list c).getD r []
      = (List.range c.n).map (fun k => (b.getT (r * c.n + k)).value) := by
    unfold Board.as_list
    rw [List.getD_eq_getElem _ _ (by simpa using hr), List.getElem_map, List.getElem_range]
  rw [h1, List.getD_eq_getElem _ _ (by simpa using hk), List.getElem_map, List.getElem_range]

theorem set_tiles_getT_rc {c : Cfg} {b : Board} {r k : Nat} (vals : List (List Nat))
    (hlen : b.tiles.length = c.n * c.n) (hr : r < c.n) (hk : k < c.n) :
    (b.set_tiles c vals).getT (r * c.n + k)
      = Tile.set_value c ((vals.getD r []).getD k c.unknown) := by
  rw [set_tiles_getT vals hlen (rc_lt hr hk), rc_div hk, rc_mod hk]

/-! ### Basic facts about the minimum-candidate scan -/

theorem foldl_flatten {α β : Type} (F : β → α → β) (l : List (List α)) :
    ∀ b : β, l.flatten.foldl F b = l.foldl (fun acc g => g.foldl F acc) b := by
  induction l with
  | nil => intro b; rfl
  | cons g gs ih => intro b; simp only [List.flatten_cons, List.foldl_append, List.foldl_cons]; exact ih _

theorem min_choice_tile_eq_foldl (c : Cfg) (b : Board) :
    b.min_choice_tile c = c.groups.flatten.foldl (Board.mctStep c b) none := by
  rw [Board.min_choice_tile, foldl_flatten]

theorem mctStep_known {c : Cfg} {b : Board} {p : Nat} (acc : Option Nat)
    (hv : (b.getT p).value ≠ c.unknown) : Board.mctStep c b acc p = acc := by
  unfold Board.mctStep
  simp [hv]

theorem mctStep_none {c : Cfg} {b : Board} {p : Nat}
    (hv : (b.getT p).value = c.unknown) : Board.mctStep c b none p = some p := by
  unfold Board.mctStep
  simp [hv]

theorem mctStep_some {c : Cfg} {b : Board} {p q : Nat}
    (hv : (b.getT p).value = c.unknown) :
    Board.mctStep c b (some q) p =
      if (b.getT p).candidates.length < (b.getT q).candidates.length
      then some p else some q := by
  unfold Board.mctStep
  simp [hv]

theorem mctFold_none_iff (c : Cfg) (b : Board) :
    ∀ (l : List Nat) (acc : Option Nat),
      (l.foldl (Board.mctStep c b) acc = none ↔
        acc = none ∧ ∀ q ∈ l, (b.getT q).value ≠ c.unknown)
  | [], acc => by simp
  | p :: l, acc => by
    rw [List.foldl_cons, mctFold_none_iff c b l]
    by_cases hv : (b.getT p).value = c.unknown
    · constructor
      · rintro ⟨hstep, _⟩
        exfalso
        cases acc with
        | none => rw [mctStep_none hv] at hstep; exact Option.noConfusion hstep
        | some q =>
          rw [mctStep_some hv] at hstep
          split at hstep <;> exact Option.noConfusion hstep
      · rintro ⟨_, hall⟩
        exact absurd hv (hall p (by simp))
    · rw [mctStep_known acc hv]
      constructor
      · rintro ⟨hacc, hall⟩
        refine ⟨hacc, fun q hq => ?_⟩
        rcases List.mem_cons.mp hq with rfl | hq
        · exact hv
        · exact hall q hq
      · rintro ⟨hacc, hall⟩
        exact ⟨hacc, fun q hq => hall q (by simp [hq])⟩

theorem mctFold_some (c : Cfg) (b : Board) :
    ∀ (l : List Nat) (acc : Option Nat) (p : Nat),
      l.foldl (Board.mctStep c b) acc = some p →
      acc = some p ∨ (p ∈ l ∧ (b.getT p).value = c.unknown)
  | [], _, p, h => Or.inl h
  | q :: l, acc, p, h => by
    rw [List.foldl_cons] at h
    rcases mctFold_some c b l _ p h with hstep | hmem
    · by_cases hv : (b.getT q).value = c.unknown
      · cases acc with
        | none =>
          rw [mctStep_none hv] at hstep
          have hqp : q = p := Option.some.inj hstep
          exact Or.inr ⟨by simp [hqp], hqp ▸ hv⟩
        | some q0 =>
          rw [mctStep_some hv] at hstep
          split at hstep
          · have hqp : q = p := Option.some.inj hstep
            exact Or.inr ⟨by simp [hqp], hqp ▸ hv⟩
          · exact Or.inl hstep
      · rw [mctStep_known acc hv] at hstep
        exact Or.inl hstep
    · exact Or.inr ⟨by simp [hmem.1], hmem.2⟩

theorem min_choice_tile_none_iff {c : Cfg} {b : Board} :
    b.min_choice_tile c = none ↔ b.is_complete c = true := by
  rw [min_choice_tile_eq_foldl, mctFold_none_iff, is_complete_iff]
  constructor
  · rintro ⟨_, hall⟩ g hg q hq
    exact hall q (List.mem_flatten.mpr ⟨g, hg, hq⟩)
  · intro hall
    refine ⟨rfl, fun q hq => ?_⟩
    obtain ⟨g, hg, hqg⟩ := List.mem_flatten.mp hq
    exact hall g hg q hqg

theorem min_choice_tile_some {c : Cfg} {b : Board} {p : Nat}
    (h : b.min_choice_tile c = some p) :
    p < c.n * c.n ∧ (b.getT p).value = c.unknown := by
  rw [min_choice_tile_eq_foldl] at h
  rcases mctFold_some c b _ _ _ h with habs | ⟨hmem, hunk⟩
  · exact absurd habs (by simp)
  · obtain ⟨g, hg, hqg⟩ := List.mem_flatten.mp hmem
    exact ⟨groups_sub hg p hqg, hunk⟩

theorem min_choice_tile_of_not_complete {c : Cfg} {b : Board}
    (h : b.is_complete c = false) :
    ∃ p, b.min_choice_tile c = some p ∧ p < c.n * c.n ∧ (b.getT p).value = c.unknown := by
  cases hm : b.min_choice_tile c with
  | none => rw [min_choice_tile_none_iff] at hm; rw [hm] at h; simp at h
  | some p => exact ⟨p, rfl, min_choice_tile_some hm⟩

/-! ### Refinement: known values persist and candidate sets shrink -/

/-- `b'` refines `b`: every value known in `b` is unchanged in `b'` and
every candidate set of `b'` is contained in the corresponding one of `b`. -/
def Board.refines (c : Cfg) (b b' : Board) : Prop :=
  (∀ p, (b.getT p).value ≠ c.unknown → (b'.getT p).value = (b.getT p).value) ∧
    (∀ p, ∀ x ∈ (b'.getT p).candidates, x ∈ (b.getT p).candidates)

theorem refines_rfl (c : Cfg) (b : Board) : Board.refines c b b :=
  ⟨fun _ _ => rfl, fun _ _ hx => hx⟩

theorem refines_trans {c : Cfg} {b1 b2 b3 : Board} (h12 : Board.refines c b1 b2)
    (h23 : Board.refines c b2 b3) : Board.refines c b1 b3 := by
  constructor
  · intro p hp
    have h2 := h12.1 p hp
    have h3 := h23.1 p (by rw [h2]; exact hp)
    rw [h3, h2]
  · intro p x hx
    exact h12.2 p x (h23.2 p x hx)

theorem refines_setT {c : Cfg} {b : Board} {p : Nat} {t : Tile}
    (hval : (b.getT p).value ≠ c.unknown → t.value = (b.getT p).value)
    (hcand : ∀ x ∈ t.candidates, x ∈ (b.getT p).candidates) :
    Board.refines c b (b.setT p t) := by
  by_cases hp : p < b.tiles.length
  · constructor
    · intro q hq
      by_cases hqp : q = p
      · subst hqp; rw [getT_setT_same _ hp]; exact hval hq
      · rw [getT_setT_ne _ hqp]
    · intro q x hx
      by_cases hqp : q = p
      · subst hqp; rw [getT_setT_same _ hp] at hx; exact hcand x hx
      · rw [getT_setT_ne _ hqp] at hx; exact hx
  · rw [setT_out_of_range _ (Nat.le_of_not_lt hp)]
    exact refines_rfl c b

theorem refines_nakedStep {c : Cfg} {used : List Nat} {ab : Board × Bool}
    (hOK : Board.OK c ab.1) (p : Nat) :
    Board.refines c ab.1 (Board.nakedStep c used ab p).1 := by
  unfold Board.nakedStep
  by_cases hv : (ab.1.getT p).value = c.unknown
  · simp only [hv, if_true]
    apply refines_setT
    · intro hk; exact absurd hv hk
    · set t := ab.1.getT p with ht
      have hdiffsub : ∀ x ∈ t.diff used, x ∈ t.candidates := fun x hx =>
        List.mem_of_mem_filter hx
      by_cases heq : t.diff used = t.candidates
      · rw [remove_candidates_of_eq heq]
        exact fun x hx => hx
      rcases hd : t.diff used with _ | ⟨v, vs⟩
      · rw [remove_candidates_of_nil hd heq]
        intro x hx
        simp at hx
      rcases vs with _ | ⟨w, ws⟩
      · rw [remove_candidates_of_single hd heq]
        have hvt : v ∈ t.candidates := hdiffsub v (by rw [hd]; simp)
        have hvc : v ∈ c.choices := by
          by_cases hp : p < ab.1.tiles.length
          · exact (hOK.getTOK hp).2.1 v hvt
          · rw [getT_of_length_le (Nat.le_of_not_lt hp)] at ht
            rw [ht] at hvt
            simp [defTile] at hvt
        rw [set_value_of_choice hvc]
        intro x hx
        simp at hx
        subst hx
        exact hvt
      · rw [remove_candidates_of_big hd heq]
        intro x hx
        exact hdiffsub x (by rw [hd]; exact hx)
  · simp only [hv, if_false]
    exact refines_rfl c ab.1

theorem refines_hiddenStep {c : Cfg} {g : List Nat} {ab : Board × Bool}
    (hOK : Board.OK c ab.1) (v : Nat) :
    Board.refines c ab.1 (Board.hiddenStep c g ab v).1 := by
  unfold Board.hiddenStep
  split
  case h_1 p heq =>
    have hp : p ∈ g.filter (fun p => decide (v ∈ (ab.1.getT p).candidates)) := by
      rw [heq]; simp
    have hvp : v ∈ (ab.1.getT p).candidates := by
      have := List.of_mem_filter hp
      simpa using this
    have hplt : p < ab.1.tiles.length := by
      by_contra hnp
      rw [getT_of_length_le (Nat.le_of_not_lt hnp)] at hvp
      simp [defTile] at hvp
    have hvc : v ∈ c.choices := (hOK.getTOK hplt).2.1 v hvp
    apply refines_setT
    · intro hk
      have hsing := (hOK.getTOK hplt).2.2
      rcases (hOK.getTOK hplt).1 with hkc | hunk
      · have := hsing hkc
        rw [this] at hvp
        simp at hvp
        rw [set_value_of_choice hvc, hvp]
      · exact absurd hunk hk
    · rw [set_value_of_choice hvc]
      intro x hx
      simp at hx
      subst hx
      exact hvp
  case h_2 => exact refines_rfl c ab.1

theorem foldl_refines {α : Type} (c : Cfg) (F : Board × Bool → α → Board × Bool)
    (l : List α)
    (hOKF : ∀ ab x, x ∈ l → Board.OK c ab.1 → Board.OK c (F ab x).1)
    (hrefF : ∀ ab x, x ∈ l → Board.OK c ab.1 → Board.refines c ab.1 (F ab x).1) :
    ∀ ab, Board.OK c ab.1 → Board.refines c ab.1 (l.foldl F ab).1 := by
  induction l with
  | nil => exact fun ab _ => refines_rfl c ab.1
  | cons x xs ih =>
    intro ab hOK
    refine refines_trans (hrefF ab x (by simp) hOK) ?_
    exact ih (fun ab' y hy => hOKF ab' y (by simp [hy]))
      (fun ab' y hy => hrefF ab' y (by simp [hy])) (F ab x) (hOKF ab x (by simp) hOK)

theorem refines_naked_single {c : Cfg} (hWF : c.WF) {b : Board} (hOK : Board.OK c b) :
    Board.refines c b (b.naked_single c).1 :=
  foldl_refines c (Board.nakedGroup c) c.groups
    (fun ab g _ h => foldl_preserves_ab (Board.OK c) _ g
      (fun _ p _ h' => OK_nakedStep hWF _ h' p) ab h)
    (fun ab g _ h => foldl_refines c (Board.nakedStep c (Board.usedValues c ab.1 g)) g
      (fun _ p _ h' => OK_nakedStep hWF _ h' p)
      (fun _ p _ h' => refines_nakedStep h' p) ab h) (b, false) hOK

theorem refines_hidden_single {c : Cfg} (hWF : c.WF) {b : Board} (hOK : Board.OK c b) :
    Board.refines c b (b.hidden_single c).1 :=
  foldl_refines c (Board.hiddenGroup c) c.groups
    (fun ab g _ h => foldl_preserves_ab (Board.OK c) _ _
      (fun _ v _ h' => OK_hiddenStep hWF g h' v) ab h)
    (fun ab g _ h => foldl_refines c (Board.hiddenStep c g) (Board.leftovers c ab.1 g)
      (fun _ v _ h' => OK_hiddenStep hWF g h' v)
      (fun _ v _ h' => refines_hiddenStep h' v) ab h) (b, false) hOK

theorem refines_propagateF {c : Cfg} (hWF : c.WF) :
    ∀ (f : Nat) {b : Board}, Board.OK c b → Board.refines c b (Board.propagateF c f b)
  | 0, b, _ => refines_rfl c b
  | f + 1, b, hOK => by
    simp only [Board.propagateF]
    have h1 := refines_naked_single hWF hOK
    have hOK1 := OK_naked_single hWF hOK
    have h2 := refines_hidden_single hWF hOK1
    have hOK2 := OK_hidden_single hWF hOK1
    by_cases hpr : (b.naked_single c).2 = true
    · simp only [hpr, if_true]
      exact refines_trans h1 (refines_trans h2 (refines_propagateF hWF f hOK2))
    · simp [hpr]
      exact refines_trans h1 h2

theorem refines_propagate {c : Cfg} (hWF : c.WF) {b : Board} (hOK : Board.OK c b) :
    Board.refines c b (b.propagate c) :=
  refines_propagateF hWF _ hOK

/-! ### Lengths and the number of UNKNOWN tiles -/

theorem length_nakedStep (c : Cfg) (used : List Nat) (ab : Board × Bool) (p : Nat) :
    (Board.nakedStep c used ab p).1.tiles.length = ab.1.tiles.length := by
  unfold Board.nakedStep
  by_cases hv : (ab.1.getT p).value = c.unknown
  · simp only [hv, if_true]; exact length_setT _ _ _
  · simp [hv]

theorem length_hiddenStep (c : Cfg) (g : List Nat) (ab : Board × Bool) (v : Nat) :
    (Board.hiddenStep c g ab v).1.tiles.length = ab.1.tiles.length := by
  unfold Board.hiddenStep
  split
  · exact length_setT _ _ _
  · rfl

theorem length_naked_single (c : Cfg) (b : Board) :
    (b.naked_single c).1.tiles.length = b.tiles.length := by
  refine foldl_preserves_ab (fun x => x.tiles.length = b.tiles.length)
    (Board.nakedGroup c) c.groups ?_ (b, false) rfl
  intro ab g _ h
  unfold Board.nakedGroup
  refine foldl_preserves_ab (fun x => x.tiles.length = b.tiles.length)
    (Board.nakedStep c (Board.usedValues c ab.1 g)) g ?_ ab h
  intro ab' p _ h'
  rw [length_nakedStep]
  exact h'

theorem length_hidden_single (c : Cfg) (b : Board) :
    (b.hidden_single c).1.tiles.length = b.tiles.length := by
  refine foldl_preserves_ab (fun x => x.tiles.length = b.tiles.length)
    (Board.hiddenGroup c) c.groups ?_ (b, false) rfl
  intro ab g _ h
  unfold Board.hiddenGroup
  refine foldl_preserves_ab (fun x => x.tiles.length = b.tiles.length)
    (Board.hiddenStep c g) (Board.leftovers c ab.1 g) ?_ ab h
  intro ab' v _ h'
  rw [length_hiddenStep]
  exact h'

theorem length_propagateF (c : Cfg) :
    ∀ (f : Nat) (b : Board), (Board.propagateF c f b).tiles.length = b.tiles.length
  | 0, _ => rfl
  | f + 1, b => by
    simp only [Board.propagateF]
    by_cases hpr : (b.naked_single c).2 = true
    · simp only [hpr, if_true]
      rw [length_propagateF c f, length_hidden_single, length_naked_single]
    · simp [hpr]
      rw [length_hidden_single, length_naked_single]

theorem length_propagate (c : Cfg) (b : Board) :
    (b.propagate c).tiles.length = b.tiles.length :=
  length_propagateF c _ b

theorem unknowns_congr_of_values {c : Cfg} {b b' : Board}
    (hlen : b.tiles.length = b'.tiles.length)
    (h : ∀ p < b.tiles.length, (b.getT p).value = (b'.getT p).value) :
    b.unknowns c = b'.unknowns c :=
  unknowns_congr hlen h

theorem unknowns_le_of_refines {c : Cfg} {b b' : Board} (href : Board.refines c b b')
    (hlen : b'.tiles.length = b.tiles.length) : b'.unknowns c ≤ b.unknowns c := by
  rw [unknowns_eq_countP_range, unknowns_eq_countP_range, hlen]
  apply List.countP_mono_left
  intro p _
  simp only [decide_eq_true_eq]
  intro hunk'
  by_contra hk
  have := href.1 p hk
  rw [this] at hunk'
  exact hk hunk'

theorem unknowns_propagate_le {c : Cfg} (hWF : c.WF) {b : Board} (hOK : Board.OK c b) :
    (b.propagate c).unknowns c ≤ b.unknowns c :=
  unknowns_le_of_refines (refines_propagate hWF hOK) (length_propagate c b)

theorem unknowns_setT_lt {c : Cfg} {b : Board} {p : Nat} {t : Tile}
    (hp : p < b.tiles.length) (hunk : (b.getT p).value = c.unknown)
    (ht : t.value ≠ c.unknown) : (b.setT p t).unknowns c < b.unknowns c := by
  have h := countP_set (fun tl => decide (tl.value = c.unknown)) defTile b.tiles p t hp
  simp only [decide_eq_true_eq] at h
  have hunk' : (b.tiles.getD p defTile).value = c.unknown := hunk
  rw [if_pos hunk', if_neg ht] at h
  simp only [Board.unknowns, Board.setT]
  omega

theorem pos_decomp {c : Cfg} {q : Nat} (hq : q < c.n * c.n) :
    q / c.n < c.n ∧ q % c.n < c.n ∧ q / c.n * c.n + q % c.n = q := by
  have hn : 0 < c.n := by
    rcases Nat.eq_zero_or_pos c.n with h | h
    · rw [h] at hq; simp at hq
    · exact h
  refine ⟨(Nat.div_lt_iff_lt_mul hn).mpr hq, Nat.mod_lt _ hn, ?_⟩
  rw [Nat.mul_comm]
  exact Nat.div_add_mod q c.n

/-- Restoring the snapshot of `b1` into any N²-sized board reproduces the
values of `b1` (the candidate sets become the value-derived defaults). -/
theorem set_tiles_as_list_values {c : Cfg} (hWF : c.WF) {b1 x : Board}
    (hOK1 : Board.OK c b1) (hxlen : x.tiles.length = c.n * c.n) :
    ∀ q < c.n * c.n, ((x.set_tiles c (b1.as_list c)).getT q).value = (b1.getT q).value := by
  intro q hq
  obtain ⟨hr, hk, hrc⟩ := pos_decomp (c := c) hq
  have hget := set_tiles_getT (b := x) (b1.as_list c) hxlen hq
  rw [hget, as_list_getD b1 hr hk, hrc]
  have hqlen : q < b1.tiles.length := by rw [hOK1.1]; exact hq
  rcases (hOK1.getTOK hqlen).1 with hkc | hunk
  · rw [set_value_of_choice hkc]
  · rw [hunk, set_value_of_junk hWF.unk_not_choice]

theorem as_list_congr {c : Cfg} {b b' : Board}
    (h : ∀ q < c.n * c.n, (b.getT q).value = (b'.getT q).value) :
    b.as_list c = b'.as_list c := by
  unfold Board.as_list
  apply List.map_congr_left
  intro r hr
  apply List.map_congr_left
  intro k hk
  exact h _ (rc_lt (List.mem_range.mp hr) (List.mem_range.mp hk))

/-! ### Termination of the solver: the fuel is irrelevant above the bound -/

theorem set_value_known {c : Cfg} (hWF : c.WF) {v : Nat} (hv : v ∈ c.choices) :
    (Tile.set_value c v).value ≠ c.unknown := by
  rw [set_value_of_choice hv]
  intro habs
  exact hWF.unk_not_choice (habs ▸ hv)

/-- Congruence for the guess loop: two recursive calls that agree on every
well-formed board with strictly fewer UNKNOWN tiles than `b1` give the same
loop result, for any loop state holding the values of `b1`. -/
theorem guessLoop_congr {c : Cfg} (hWF : c.WF) {b1 : Board} (hOK1 : Board.OK c b1)
    {p : Nat} (hp : p < c.n * c.n) (hunk1 : (b1.getT p).value = c.unknown)
    (recur recur' : Board → Bool × Board)
    (hrecOK : ∀ bd, Board.OK c bd → Board.OK c (recur' bd).2)
    (hrec : ∀ bd, Board.OK c bd → bd.unknowns c < b1.unknowns c → recur bd = recur' bd) :
    ∀ (vs : List Nat), (∀ v ∈ vs, v ∈ c.choices) →
      ∀ (bd : Board), Board.OK c bd →
        (∀ q < c.n * c.n, (bd.getT q).value = (b1.getT q).value) →
        Board.guessLoop c recur (b1.as_list c) p vs bd
          = Board.guessLoop c recur' (b1.as_list c) p vs bd
  | [], _, bd, _, _ => rfl
  | v :: vs, hvs, bd, hOKbd, hvals => by
    simp only [Board.guessLoop]
    have hvc : v ∈ c.choices := hvs v (by simp)
    have hplt : p < bd.tiles.length := by rw [hOKbd.1]; exact hp
    have hpunk : (bd.getT p).value = c.unknown := by rw [hvals p hp]; exact hunk1
    have hudec : (bd.setT p (Tile.set_value c v)).unknowns c < bd.unknowns c :=
      unknowns_setT_lt hplt hpunk (set_value_known hWF hvc)
    have hueq : bd.unknowns c = b1.unknowns c :=
      unknowns_congr_of_values (by rw [hOKbd.1, hOK1.1])
        (fun q hq => hvals q (by rw [← hOKbd.1]; exact hq))
    have hOKbd1 : Board.OK c (bd.setT p (Tile.set_value c v)) :=
      hOKbd.setTOK (tileOK_set_value hWF v)
    rw [hrec _ hOKbd1 (by omega)]
    by_cases hr : (recur' (bd.setT p (Tile.set_value c v))).1 = true
    · simp only [hr, if_true]
    · simp only [hr, if_false]
      have hOKres : Board.OK c (recur' (bd.setT p (Tile.set_value c v))).2 :=
        hrecOK _ hOKbd1
      exact guessLoop_congr hWF hOK1 hp hunk1 recur recur' hrecOK hrec vs
        (fun u hu => hvs u (by simp [hu])) _
        (OK_set_tiles hWF hOKres _)
        (set_tiles_as_list_values hWF hOK1 hOKres.1)

/-- The fuelled solver does not depend on the fuel once the fuel exceeds
the number of UNKNOWN tiles: the source recursion terminates. -/
theorem solveF_congr {c : Cfg} (hWF : c.WF) :
    ∀ (f f' : Nat) (b : Board), Board.OK c b → b.unknowns c < f → b.unknowns c < f' →
      Board.solveF c f b = Board.solveF c f' b := by
  intro f
  induction f with
  | zero => intro f' b _ h _; omega
  | succ g ih =>
    intro f' b hOK hf hf'
    cases f' with
    | zero => omega
    | succ g' =>
      simp only [Board.solveF]
      by_cases hc : (b.propagate c).is_complete c = true
      · simp [hc]
      · simp only [hc, if_false]
        by_cases hcons : (b.propagate c).is_consistent c = true
        · simp only [hcons, Bool.not_true, Bool.false_eq_true, if_false]
          cases hmin : (b.propagate c).min_choice_tile c with
          | none => simp
          | some p =>
            simp only []
            obtain ⟨hplt, hpunk⟩ := min_choice_tile_some hmin
            have hOK1 : Board.OK c (b.propagate c) := OK_propagate hWF hOK
            have hu1 : (b.propagate c).unknowns c ≤ b.unknowns c :=
              unknowns_propagate_le hWF hOK
            apply guessLoop_congr hWF hOK1 hplt hpunk
              (Board.solveF c g) (Board.solveF c g')
              (fun bd hbd => OK_solveF hWF g' hbd)
              (fun bd hbd hu => ih g' bd hbd (by omega) (by omega))
            · intro v hv
              exact (hOK1.getTOK (by rw [hOK1.1]; exact hplt)).2.1 v hv
            · exact hOK1
            · intro q _; rfl
        · simp [hcons]

/-! ### Solver success yields a complete grid -/

theorem guessLoop_complete {c : Cfg} (recur : Board → Bool × Board)
    (hrec : ∀ b, (recur b).1 = true → (recur b).2.is_complete c = true)
    (saved : List (List Nat)) (p : Nat) :
    ∀ (vs : List Nat) (bd : Board),
      (Board.guessLoop c recur saved p vs bd).1 = true →
      (Board.guessLoop c recur saved p vs bd).2.is_complete c = true
  | [], bd, h => by simp [Board.guessLoop] at h
  | v :: vs, bd, h => by
    simp only [Board.guessLoop] at h ⊢
    by_cases hr : (recur (bd.setT p (Tile.set_value c v))).1 = true
    · simp only [hr, if_true] at h ⊢
      exact hrec _ hr
    · simp only [hr, if_false] at h ⊢
      exact guessLoop_complete recur hrec saved p vs _ h

theorem solveF_complete {c : Cfg} :
    ∀ (f : Nat) (b : Board), (Board.solveF c f b).1 = true →
      (Board.solveF c f b).2.is_complete c = true
  | 0, b, h => by simp [Board.solveF] at h
  | f + 1, b, h => by
    simp only [Board.solveF] at h ⊢
    by_cases hc : (b.propagate c).is_complete c = true
    · simp only [hc, if_true]
    · simp only [hc, if_false] at h ⊢
      by_cases hcons : (b.propagate c).is_consistent c = true
      · simp only [hcons, Bool.not_true, Bool.false_eq_true, if_false] at h ⊢
        rcases hmin : (b.propagate c).min_choice_tile c with _ | p
        · rw [hmin] at h
          exact Bool.noConfusion h
        · rw [hmin] at h
          exact guessLoop_complete _ (fun b' => solveF_complete f b') _ _ _ _ h
      · simp [hcons] at h

/-! ### Sample configurations and boards for the concrete checks -/

set_option maxRecDepth 40000

/-- A 1×1 configuration (single symbol). -/
def cfg1 : Cfg := { root := 1, choices := [1], unknown := 0 }

/-- The 4×4 configuration with 2×2 blocks. -/
def cfg4 : Cfg := { root := 2, choices := [1, 2, 3, 4], unknown := 0 }

theorem cfg1_WF : cfg1.WF := ⟨by decide, by decide, by decide, by decide⟩

theorem cfg4_WF : cfg4.WF := ⟨by decide, by decide, by decide, by decide⟩

/-- The complete but inconsistent all-ones 4×4 board. -/
def bOnes : Board :=
  (Board.init cfg4).set_tiles cfg4 [[1, 1, 1, 1], [1, 1, 1, 1], [1, 1, 1, 1], [1, 1, 1, 1]]

/-- An unsolvable 4×4 board (three 1s in a row) on which propagation still
deduces values before the failure is noticed. -/
def bFail : Board :=
  (Board.init cfg4).set_tiles cfg4 [[0, 0, 0, 0], [0, 0, 0, 0], [0, 1, 1, 1], [3, 0, 0, 0]]

/-- A consistent, reachable 4×4 state: a loaded board after one public
`naked_single()` call.  Propagation from it stops with an unexploited
hidden single. -/
def bIdem : Board :=
  (((Board.init cfg4).set_tiles cfg4
    [[1, 0, 0, 0], [0, 0, 0, 0], [0, 1, 0, 0], [0, 0, 0, 3]]).naked_single cfg4).1

/-- A reachable 4×4 state with pruned candidate sets. -/
def bPruned : Board :=
  (((Board.init cfg4).set_tiles cfg4
    [[1, 0, 0, 0], [0, 0, 0, 0], [0, 0, 0, 0], [0, 0, 0, 0]]).naked_single cfg4).1

/-- The empty 1×1 board. -/
def bOne1 : Board := (Board.init cfg1).set_tiles cfg1 [[0]]

/-! ### Claim C1 -/

/-- C1, counterexample: the claim quantifies over every initial board, but on
the all-ones board `solve()` returns True (the grid is complete, so the
completeness test short-circuits before any consistency check) while
`is_consistent()` is False. -/
theorem C1_counterexample :
    (bOnes.solve cfg4).1 = true ∧ (bOnes.solve cfg4).2.is_consistent cfg4 = false := by
  decide

/-- C1 (amended): for every initial board, if `solve()` returns True then the
grid afterwards is complete (no tile has value UNKNOWN); `is_consistent()`
need not hold, because `solve` returns True for any complete grid without
checking consistency. -/
theorem C1_solve_complete (c : Cfg) (b : Board) (h : (b.solve c).1 = true) :
    (b.solve c).2.is_complete c = true :=
  solveF_complete _ b h

/-- Witness for C1: the empty 1×1 board is solved and the result is
complete. -/
theorem C1_witness :
    (bOne1.solve cfg1).1 = true ∧ (bOne1.solve cfg1).2.is_complete cfg1 = true :=
  ⟨by decide, C1_solve_complete cfg1 bOne1 (by decide)⟩

/-! ### Claim C7 -/

/-- C7, counterexample: `remove_candidates` applied to a tile in a legal
state (known value 1, candidates {1}) with used values containing 1 leaves a
tile whose value 1 is a symbol but whose candidate set is empty, violating
the documented invariant. -/
theorem C7_counterexample :
    TileInv cfg4 { value := 1, candidates := [1] } ∧
      ¬ TileInv cfg4
        ((Tile.remove_candidates cfg4 { value := 1, candidates := [1] } [1]).2) := by
  unfold TileInv
  decide

/-- C7 (amended): every public operation preserves the documented per-tile
invariant, with `remove_candidates` restricted to tiles whose value is
UNKNOWN — exactly how `naked_single` uses it; on a known tile whose value is
among the used values it breaks the invariant (see the counterexample).
Board states are the documented ones: each tile's value is a symbol or
UNKNOWN with candidates drawn from CHOICES (`Board.OK`). -/
theorem C7_invariant (c : Cfg) (hWF : c.WF) :
    (∀ v, TileInv c (Tile.set_value c v)) ∧
    (∀ t used, TileOK c t → t.value = c.unknown →
      TileInv c ((t.remove_candidates c used).2)) ∧
    (∀ b vals, Board.OK c b → ∀ t ∈ (b.set_tiles c vals).tiles, TileInv c t) ∧
    (∀ b, Board.OK c b → ∀ t ∈ (b.naked_single c).1.tiles, TileInv c t) ∧
    (∀ b, Board.OK c b → ∀ t ∈ (b.hidden_single c).1.tiles, TileInv c t) ∧
    (∀ b, Board.OK c b → ∀ t ∈ (b.propagate c).tiles, TileInv c t) ∧
    (∀ b, Board.OK c b → ∀ t ∈ (b.solve c).2.tiles, TileInv c t) := by
  refine ⟨fun v => (tileOK_set_value hWF v).inv,
    fun t used hOK hunk => (tileOK_remove_candidates hWF hOK hunk used).inv,
    fun b vals hOK t ht => ((OK_set_tiles hWF hOK vals).2 t ht).inv,
    fun b hOK t ht => ((OK_naked_single hWF hOK).2 t ht).inv,
    fun b hOK t ht => ((OK_hidden_single hWF hOK).2 t ht).inv,
    fun b hOK t ht => ((OK_propagate hWF hOK).2 t ht).inv,
    fun b hOK t ht => ((OK_solve hWF hOK).2 t ht).inv⟩

/-- Witness for C7: the invariant after setting a value on a 4×4 tile. -/
theorem C7_witness : TileInv cfg4 (Tile.set_value cfg4 3) :=
  (C7_invariant cfg4 cfg4_WF).1 3

/-! ### Claim C8 -/

/-- C8, counterexample: for a known tile whose value is among the used
values the difference is empty, yet the tile's value does not stay UNKNOWN —
it keeps its known value with an empty candidate set. -/
theorem C8_counterexample :
    Tile.diff { value := 1, candidates := [1] } [1] = [] ∧
      (Tile.remove_candidates cfg4 { value := 1, candidates := [1] } [1]).2.value
        ≠ cfg4.unknown := by
  decide

/-- C8 (amended): the full `remove_candidates` contract.  No change returns
False and leaves the tile alone; otherwise the candidates become the
difference and True is returned, auto-promoting through `set_value` when a
single candidate remains; when the difference is empty the tile's value is
unchanged (in particular an UNKNOWN tile stays UNKNOWN) with an empty
candidate set and no error is raised. -/
theorem C8_contract (c : Cfg) (t : Tile) (used : List Nat) :
    (t.diff used = t.candidates → t.remove_candidates c used = (false, t)) ∧
    (t.diff used ≠ t.candidates → (t.remove_candidates c used).1 = true) ∧
    (t.diff used ≠ t.candidates → ∀ v, t.diff used = [v] →
      (t.remove_candidates c used).2 = Tile.set_value c v) ∧
    (t.diff used ≠ t.candidates → (t.diff used).length ≠ 1 →
      (t.remove_candidates c used).2 = { t with candidates := t.diff used }) ∧
    (t.diff used = [] →
      (t.remove_candidates c used).2.value = t.value ∧
        (t.remove_candidates c used).2.candidates = []) := by
  refine ⟨fun h => remove_candidates_of_eq h, fun hne => ?_, fun hne v hv => ?_,
    fun hne hlen => ?_, fun hnil => ?_⟩
  · rcases hd : t.diff used with _ | ⟨v, vs⟩
    · rw [remove_candidates_of_nil hd (hd ▸ hne)]
    · rcases vs with _ | ⟨w, ws⟩
      · rw [remove_candidates_of_single hd (hd ▸ hne)]
      · rw [remove_candidates_of_big hd (hd ▸ hne)]
  · rw [remove_candidates_of_single hv hne]
  · rcases hd : t.diff used with _ | ⟨v, vs⟩
    · rw [remove_candidates_of_nil hd hne]
    · rcases vs with _ | ⟨w, ws⟩
      · rw [hd] at hlen; simp at hlen
      · rw [remove_candidates_of_big hd hne]
  · by_cases hne : t.diff used = t.candidates
    · rw [remove_candidates_of_eq hne]
      rw [hnil] at hne
      exact ⟨rfl, hne.symm⟩
    · rw [remove_candidates_of_nil hnil hne]
      exact ⟨rfl, rfl⟩

/-- Witness for C8: removing the used value 1 from an UNKNOWN tile with
candidates {1, 2} promotes the tile to 2 through `set_value`. -/
theorem C8_witness :
    (Tile.remove_candidates cfg4 { value := 0, candidates := [1, 2] } [1]).2
      = Tile.set_value cfg4 2 :=
  (C8_contract cfg4 { value := 0, candidates := [1, 2] } [1]).2.2.1 (by decide) 2 (by decide)

/-! ### Claim C9 -/

/-- C9: no input validation at the public interface: `set_value` maps every
token outside CHOICES (not only the UNKNOWN placeholder) to an UNKNOWN tile
with the full candidate set, and hence `set_tiles` silently converts every
malformed symbol of the input matrix to an UNKNOWN tile rather than raising
an error. -/
theorem C9_no_validation (c : Cfg) :
    (∀ v, v ∉ c.choices →
      Tile.set_value c v = { value := c.unknown, candidates := c.choices }) ∧
    (∀ (b : Board) (vals : List (List Nat)) (r k : Nat),
      b.tiles.length = c.n * c.n → r < c.n → k < c.n →
      (vals.getD r []).getD k c.unknown ∉ c.choices →
      (b.set_tiles c vals).getT (r * c.n + k)
        = { value := c.unknown, candidates := c.choices }) := by
  constructor
  · intro v hv
    exact set_value_of_junk hv
  · intro b vals r k hlen hr hk hv
    rw [set_tiles_getT_rc vals hlen hr hk, set_value_of_junk hv]

/-- Witness for C9: the malformed symbol 9 loaded at position (0,0) of a 4×4
board becomes an UNKNOWN tile with full candidates. -/
theorem C9_witness :
    ((Board.init cfg4).set_tiles cfg4 [[9, 0, 0, 0]]).getT 0
      = { value := cfg4.unknown, candidates := cfg4.choices } :=
  (C9_no_validation cfg4).2 (Board.init cfg4) [[9, 0, 0, 0]] 0 0
    (by decide) (by decide) (by decide) (by decide)

/-! ### Claim C5 -/

/-- C5, counterexample: on a reachable state with pruned candidate sets,
`set_tiles(as_list())` is not a no-op — the UNKNOWN tile at position 1 has
1 pruned from its candidates before and the full candidate set after. -/
theorem C5_counterexample :
    1 ∉ (bPruned.getT 1).candidates ∧
      1 ∈ ((bPruned.set_tiles cfg4 (bPruned.as_list cfg4)).getT 1).candidates := by
  decide

/-- C5 (amended): `set_tiles(as_list())` preserves every tile's value, and
known tiles are fully unchanged, but each UNKNOWN tile's candidate set is
reset to the full CHOICES set; the call is a genuine no-op only on grids
whose UNKNOWN tiles still carry full candidate sets. -/
theorem C5_round_trip {c : Cfg} (hWF : c.WF) {b : Board} (hOK : Board.OK c b)
    {q : Nat} (hq : q < c.n * c.n) :
    ((b.set_tiles c (b.as_list c)).getT q).value = (b.getT q).value ∧
    ((b.getT q).value ≠ c.unknown → (b.set_tiles c (b.as_list c)).getT q = b.getT q) ∧
    ((b.getT q).value = c.unknown →
      (b.set_tiles c (b.as_list c)).getT q
        = { value := c.unknown, candidates := c.choices }) := by
  obtain ⟨hr, hk, hrc⟩ := pos_decomp (c := c) hq
  have hget := set_tiles_getT (b := b) (b.as_list c) hOK.1 hq
  rw [hget, as_list_getD b hr hk, hrc]
  have hqlen : q < b.tiles.length := by rw [hOK.1]; exact hq
  have hOKq := hOK.getTOK hqlen
  rcases hOKq.1 with hkc | hunk
  · have hcand := hOKq.2.2 hkc
    rw [set_value_of_choice hkc]
    refine ⟨rfl, fun _ => ?_, fun habs => absurd (habs ▸ hkc) hWF.unk_not_choice⟩
    rw [← hcand]
  · rw [hunk, set_value_of_junk hWF.unk_not_choice]
    exact ⟨rfl, fun hne => absurd rfl hne, fun _ => rfl⟩

/-- Witness for C5 at position 0 of the pruned 4×4 state: the value is
preserved, the known tile is unchanged. -/
theorem C5_witness :
    ((bPruned.set_tiles cfg4 (bPruned.as_list cfg4)).getT 0).value
        = (bPruned.getT 0).value ∧
    ((bPruned.getT 0).value ≠ cfg4.unknown →
      (bPruned.set_tiles cfg4 (bPruned.as_list cfg4)).getT 0 = bPruned.getT 0) ∧
    ((bPruned.getT 0).value = cfg4.unknown →
      (bPruned.set_tiles cfg4 (bPruned.as_list cfg4)).getT 0
        = { value := cfg4.unknown, candidates := cfg4.choices }) :=
  C5_round_trip cfg4_WF (by simp only [Board.OK, TileOK]; decide) (by decide)

/-! ### Claim C6 -/

/-- C6, counterexample: `solve()` fails on this board, yet the grid
afterwards differs from the entry state: propagation promoted the tile at
position 8 from UNKNOWN to the value 2 before the contradiction was noticed,
and the failing path performs no restore of the entry state. -/
theorem C6_counterexample :
    (bFail.solve cfg4).1 = false ∧ (bFail.getT 8).value = cfg4.unknown ∧
      ((bFail.solve cfg4).2.getT 8).value = 2 := by
  decide

/-- The values of a failed guess loop: whenever the loop returns False, the
final grid carries exactly the values of the snapshot board `b1`. -/
theorem guessLoop_values {c : Cfg} (hWF : c.WF) {b1 : Board} (hOK1 : Board.OK c b1)
    (recur : Board → Bool × Board)
    (hrecOK : ∀ bd, Board.OK c bd → Board.OK c (recur bd).2) (p : Nat) :
    ∀ (vs : List Nat) (bd : Board), Board.OK c bd →
      (∀ q < c.n * c.n, (bd.getT q).value = (b1.getT q).value) →
      (Board.guessLoop c recur (b1.as_list c) p vs bd).1 = false →
      ∀ q, q < c.n * c.n →
        ((Board.guessLoop c recur (b1.as_list c) p vs bd).2.getT q).value
          = (b1.getT q).value
  | [], bd, _, hvals, _ => hvals
  | v :: vs, bd, hOKbd, hvals, hfail => by
    simp only [Board.guessLoop] at hfail ⊢
    by_cases hr : (recur (bd.setT p (Tile.set_value c v))).1 = true
    · simp only [hr, if_true] at hfail
      exact Bool.noConfusion hfail
    · simp only [hr, if_false] at hfail ⊢
      have hOKres : Board.OK c (recur (bd.setT p (Tile.set_value c v))).2 :=
        hrecOK _ (hOKbd.setTOK (tileOK_set_value hWF v))
      exact guessLoop_values hWF hOK1 recur hrecOK p vs _
        (OK_set_tiles hWF hOKres _)
        (set_tiles_as_list_values hWF hOK1 hOKres.1) hfail

/-- The values of a failed top-level solve: exactly those of the propagated
entry board. -/
theorem solve_false_values {c : Cfg} (hWF : c.WF) {b : Board} (hOK : Board.OK c b)
    (hfail : (b.solve c).1 = false) :
    ∀ q < c.n * c.n, ((b.solve c).2.getT q).value = ((b.propagate c).getT q).value := by
  intro q hq
  have hOK1 : Board.OK c (b.propagate c) := OK_propagate hWF hOK
  rw [Board.solve] at hfail ⊢
  simp only [Board.solveF] at hfail ⊢
  by_cases hc : (b.propagate c).is_complete c = true
  · simp only [hc, if_true] at hfail
    exact Bool.noConfusion hfail
  · simp only [hc, if_false] at hfail ⊢
    by_cases hcons : (b.propagate c).is_consistent c = true
    · simp only [hcons, Bool.not_true, Bool.false_eq_true, if_false] at hfail ⊢
      rcases hmin : (b.propagate c).min_choice_tile c with _ | p
      · rfl
      · rw [hmin] at hfail
        exact guessLoop_values hWF hOK1 (Board.solveF c (b.unknowns c))
          (fun bd hbd => OK_solveF hWF (b.unknowns c) hbd) p
          ((b.propagate c).getT p).candidates
          (b.propagate c) hOK1 (fun q' _ => rfl) hfail q hq
    · simp only [hcons, Bool.not_false, if_true]
      rfl

/-- C6 (amended): if `solve()` returns False, the grid is not restored to
the entry state; its values are exactly those of `propagate()` applied to
the entry state — pre-failure deductions persist — and in particular every
value known at entry is preserved. -/
theorem C6_restore (c : Cfg) (hWF : c.WF) (b : Board) (hOK : Board.OK c b)
    (hfail : (b.solve c).1 = false) :
    (b.solve c).2.as_list c = (b.propagate c).as_list c ∧
    (∀ q < c.n * c.n, (b.getT q).value ≠ c.unknown →
      ((b.solve c).2.getT q).value = (b.getT q).value) := by
  have hvals := solve_false_values hWF hOK hfail
  constructor
  · exact as_list_congr hvals
  · intro q hq hk
    rw [hvals q hq]
    exact (refines_propagate hWF hOK).1 q hk

/-- Witness for C6 on the failing 4×4 board: the snapshot of the failed
solve equals the snapshot of the propagated entry board. -/
theorem C6_witness :
    (bFail.solve cfg4).2.as_list cfg4 = (bFail.propagate cfg4).as_list cfg4 :=
  (C6_restore cfg4 cfg4_WF bFail (by simp only [Board.OK, TileOK]; decide) (by decide)).1

/-! ### Claim C4 -/

/-- C4, counterexample: a consistent, reachable state (a loaded board after
one public `naked_single()` call) on which a second `propagate()` changes
the grid.  The loop of `propagate()` exits as soon as `naked_single` reports
no progress, even though the very last `hidden_single` call has just set
values whose consequences are never pruned; the second run prunes 3 from
the candidates of tile 4. -/
theorem C4_counterexample :
    bIdem.is_consistent cfg4 = true ∧
      3 ∈ ((bIdem.propagate cfg4).getT 4).candidates ∧
      3 ∉ (((bIdem.propagate cfg4).propagate cfg4).getT 4).candidates := by
  decide

/-- C4 (amended): `propagate()` is not idempotent; a second run can extend
the first one's deductions, but only monotonically: every value known after
one run persists and every candidate set only shrinks (the second grid
refines the first). -/
theorem C4_propagate_refines (c : Cfg) (hWF : c.WF) (b : Board) (hOK : Board.OK c b) :
    Board.refines c (b.propagate c) ((b.propagate c).propagate c) :=
  refines_propagate hWF (OK_propagate hWF hOK)

/-- Witness for C4: refinement between the first and second propagation of
the reachable 4×4 state. -/
theorem C4_witness :
    Board.refines cfg4 (bIdem.propagate cfg4) ((bIdem.propagate cfg4).propagate cfg4) :=
  C4_propagate_refines cfg4 cfg4_WF bIdem (by simp only [Board.OK, TileOK]; decide)

/-! ### Valid completions -/

/-- A valid completion of a board (claim C2's notion): an assignment of a
symbol to every position that agrees with the board's known values and puts
every symbol exactly once in every group. -/
def Completion (c : Cfg) (b : Board) (w : Nat → Nat) : Prop :=
  (∀ p, p < c.n * c.n → w p ∈ c.choices) ∧
    (∀ p, p < c.n * c.n → (b.getT p).value ≠ c.unknown → w p = (b.getT p).value) ∧
    (∀ g ∈ c.groups, ∀ v ∈ c.choices, (g.map w).count v = 1)

theorem groups_length {c : Cfg} {g : List Nat} (hg : g ∈ c.groups) :
    g.length = c.n := by
  rcases mem_groups hg with ⟨br, _, bc, _, rfl⟩ | ⟨r, _, rfl⟩ | ⟨k, _, rfl⟩
  · unfold Cfg.block
    rw [List.length_flatten]
    have : ((List.range c.root).map (fun r =>
        (List.range c.root).map (fun k =>
          (c.root * br + r) * c.n + (c.root * bc + k)))).map List.length
        = List.replicate c.root c.root := by
      rw [List.map_map]
      refine List.eq_replicate_iff.mpr ⟨by simp, ?_⟩
      intro x hx
      simp only [List.mem_map] at hx
      obtain ⟨r, _, rfl⟩ := hx
      simp
    rw [this, List.sum_replicate, smul_eq_mul]
    rfl
  · simp
  · simp

/-- A duplicate-free list of symbols of full length holds every symbol
exactly once. -/
theorem count_eq_one_of_nodup_subset {c : Cfg} (hWF : c.WF) {L : List Nat}
    (hnd : L.Nodup) (hsub : ∀ x ∈ L, x ∈ c.choices) (hlen : L.length = c.choices.length) :
    ∀ v ∈ c.choices, L.count v = 1 := by
  intro v hv
  have hfin : L.toFinset = c.choices.toFinset := by
    apply Finset.eq_of_subset_of_card_le
    · intro a ha
      rw [List.mem_toFinset] at ha ⊢
      exact hsub a ha
    · rw [List.toFinset_card_of_nodup hnd, List.toFinset_card_of_nodup hWF.nodup, hlen]
  have hmem : v ∈ L := by
    rw [← List.mem_toFinset, hfin, List.mem_toFinset]
    exact hv
  exact List.count_eq_one_of_mem hnd hmem

/-- A complete and consistent grid extending a board induces a valid
completion of that board. -/
theorem completion_of_complete_consistent {c : Cfg} (hWF : c.WF) {b F : Board}
    (hOKF : Board.OK c F)
    (hext : ∀ q, q < c.n * c.n → (b.getT q).value ≠ c.unknown →
      (F.getT q).value = (b.getT q).value)
    (hcompl : F.is_complete c = true) (hcons : F.is_consistent c = true) :
    Completion c b (fun p => (F.getT p).value) := by
  have hvals : ∀ p, p < c.n * c.n → (F.getT p).value ∈ c.choices := by
    intro p hp
    have hk := is_complete_iff_pos.mp hcompl p hp
    have hOKp := hOKF.getTOK (p := p) (by rw [hOKF.1]; exact hp)
    rcases hOKp.1 with h | h
    · exact h
    · exact absurd h hk
  refine ⟨hvals, ?_, ?_⟩
  · intro p hp hkn
    exact hext p hp hkn
  · intro g hg v hv
    have hsubg := groups_sub hg
    have hLsub : ∀ x ∈ g.map (fun p => (F.getT p).value), x ∈ c.choices := by
      intro x hx
      simp only [List.mem_map] at hx
      obtain ⟨p, hpg, rfl⟩ := hx
      exact hvals p (hsubg p hpg)
    have hLnodup : (g.map (fun p => (F.getT p).value)).Nodup := by
      have hfe : (g.map (fun p => (F.getT p).value)).filter
          (fun v => decide (v ≠ c.unknown)) = g.map (fun p => (F.getT p).value) := by
        apply List.filter_eq_self.mpr
        intro a ha
        simp only [List.mem_map] at ha
        obtain ⟨p, hpg, rfl⟩ := ha
        simpa using is_complete_iff.mp hcompl g hg p hpg
      have := is_consistent_iff.mp hcons g hg
      rwa [hfe] at this
    have hLlen : (g.map (fun p => (F.getT p).value)).length = c.choices.length := by
      rw [List.length_map, groups_length hg, hWF.length_choices]
    exact count_eq_one_of_nodup_subset hWF hLnodup hLsub hLlen v hv

/-! ### Known values survive the whole solver -/

theorem guessLoop_extends {c : Cfg} (hWF : c.WF) {b1 : Board} (hOK1 : Board.OK c b1)
    (recur : Board → Bool × Board)
    (hrecOK : ∀ bd, Board.OK c bd → Board.OK c (recur bd).2)
    (hrecExt : ∀ bd, Board.OK c bd → ∀ q, q < c.n * c.n →
      (bd.getT q).value ≠ c.unknown → ((recur bd).2.getT q).value = (bd.getT q).value)
    {p : Nat} (hpunk : (b1.getT p).value = c.unknown) :
    ∀ (vs : List Nat) (bd : Board), Board.OK c bd →
      (∀ q, q < c.n * c.n → (bd.getT q).value = (b1.getT q).value) →
      ∀ q, q < c.n * c.n → (b1.getT q).value ≠ c.unknown →
        ((Board.guessLoop c recur (b1.as_list c) p vs bd).2.getT q).value
          = (b1.getT q).value
  | [], bd, _, hvals, q, hq, _ => hvals q hq
  | v :: vs, bd, hOKbd, hvals, q, hq, hknq => by
    simp only [Board.guessLoop]
    have hqp : q ≠ p := fun habs => hknq (habs ▸ hpunk)
    have hOKbd1 : Board.OK c (bd.setT p (Tile.set_value c v)) :=
      hOKbd.setTOK (tileOK_set_value hWF v)
    have hbd1q : ((bd.setT p (Tile.set_value c v)).getT q).value = (b1.getT q).value := by
      rw [getT_setT_ne _ hqp]
      exact hvals q hq
    by_cases hr : (recur (bd.setT p (Tile.set_value c v))).1 = true
    · simp only [hr, if_true]
      rw [hrecExt _ hOKbd1 q hq (by rw [hbd1q]; exact hknq), hbd1q]
    · simp only [hr, if_false]
      have hOKres : Board.OK c (recur (bd.setT p (Tile.set_value c v))).2 :=
        hrecOK _ hOKbd1
      exact guessLoop_extends hWF hOK1 recur hrecOK hrecExt hpunk vs _
        (OK_set_tiles hWF hOKres _)
        (set_tiles_as_list_values hWF hOK1 hOKres.1) q hq hknq

theorem solveF_extends {c : Cfg} (hWF : c.WF) :
    ∀ (f : Nat) (b : Board), Board.OK c b → ∀ q, q < c.n * c.n →
      (b.getT q).value ≠ c.unknown →
      ((Board.solveF c f b).2.getT q).value = (b.getT q).value
  | 0, _, _, _, _, _ => rfl
  | f + 1, b, hOK, q, hq, hknq => by
    simp only [Board.solveF]
    have hOK1 : Board.OK c (b.propagate c) := OK_propagate hWF hOK
    have hb1q : ((b.propagate c).getT q).value = (b.getT q).value :=
      (refines_propagate hWF hOK).1 q hknq
    by_cases hc : (b.propagate c).is_complete c = true
    · simp only [hc, if_true]
      exact hb1q
    · simp only [hc, if_false]
      by_cases hcons : (b.propagate c).is_consistent c = true
      · simp only [hcons, Bool.not_true, Bool.false_eq_true, if_false]
        rcases hmin : (b.propagate c).min_choice_tile c with _ | p
        · exact hb1q
        · obtain ⟨_, hpunk⟩ := min_choice_tile_some hmin
          have := guessLoop_extends hWF hOK1 (Board.solveF c f)
            (fun bd hbd => OK_solveF hWF f hbd)
            (fun bd hbd q' hq' hk' => solveF_extends hWF f bd hbd q' hq' hk')
            hpunk ((b.propagate c).getT p).candidates (b.propagate c) hOK1
            (fun q' _ => rfl) q hq (by rw [hb1q]; exact hknq)
          rw [this, hb1q]
      · simp only [hcons, Bool.not_false, if_true]
        exact hb1q

theorem solve_extends {c : Cfg} (hWF : c.WF) {b : Board} (hOK : Board.OK c b) :
    ∀ q, q < c.n * c.n → (b.getT q).value ≠ c.unknown →
      ((b.solve c).2.getT q).value = (b.getT q).value :=
  solveF_extends hWF _ b hOK

/-! ### Claim C3 -/

/-- C3 (amended): `solve()` terminates on every input board — the fuelled
recursion is independent of the fuel above the UNKNOWN-tile bound — but the
unsat-detection half of the claim must be weakened: on a board with zero
valid completions, `solve()` either returns False, or returns True with a
final grid that is complete yet inconsistent (the all-ones counterexample of
claim C1 takes the second branch, because `solve` never re-checks
consistency of a complete grid). -/
theorem C3_unsat_termination (c : Cfg) (hWF : c.WF) (b : Board) (hOK : Board.OK c b) :
    (∀ f, b.unknowns c < f → Board.solveF c f b = b.solve c) ∧
    ((¬ ∃ w, Completion c b w) →
      (b.solve c).1 = false ∨
        ((b.solve c).2.is_complete c = true ∧ (b.solve c).2.is_consistent c = false)) := by
  constructor
  · intro f hf
    exact solveF_congr hWF f (b.unknowns c + 1) b hOK hf (by omega)
  · intro hno
    by_cases hres : (b.solve c).1 = true
    · right
      have hcompl : (b.solve c).2.is_complete c = true := solveF_complete _ b hres
      refine ⟨hcompl, ?_⟩
      by_contra hcons
      have hcons' : (b.solve c).2.is_consistent c = true := by
        rcases Bool.eq_false_or_eq_true ((b.solve c).2.is_consistent c) with h | h
        · exact h
        · exact absurd h hcons
      exact hno ⟨fun p => (((b.solve c).2).getT p).value,
        completion_of_complete_consistent hWF (OK_solve hWF hOK)
          (fun q hq hk => solve_extends hWF hOK q hq hk) hcompl hcons'⟩
    · left
      rcases Bool.eq_false_or_eq_true ((b.solve c).1) with h | h
      · exact absurd h hres
      · exact h

/-- Witness for C3: on the all-ones 4×4 board any fuel above the bound
computes `solve`. -/
theorem C3_witness : Board.solveF cfg4 5 bOnes = bOnes.solve cfg4 :=
  (C3_unsat_termination cfg4 cfg4_WF bOnes
    (by simp only [Board.OK, TileOK]; decide)).1 5 (by decide)

/-- C3, counterexample: the all-ones board has zero valid completions, yet
`solve()` returns True rather than the claimed False. -/
theorem C3_counterexample :
    (bOnes.solve cfg4).1 = true ∧ ¬ ∃ w, Completion cfg4 bOnes w := by
  constructor
  · decide
  · rintro ⟨w, hchoice, hagree, hcount⟩
    have h0 : w 0 = 1 := by
      have := hagree 0 (by decide) (by decide)
      rw [this]
      decide
    have h1 : w 1 = 1 := by
      have := hagree 1 (by decide) (by decide)
      rw [this]
      decide
    have hg : ([0, 1, 2, 3] : List Nat) ∈ cfg4.groups := by decide
    have hc := hcount [0, 1, 2, 3] hg 1 (by decide)
    simp only [List.map_cons, List.map_nil, h0, h1] at hc
    simp [List.count_cons] at hc

/-! ### Completeness machinery: a completion admitted by the candidates -/

/-- The board still admits the completion `w`: at every position the
completion's symbol is among the candidates. -/
def Admits (c : Cfg) (b : Board) (w : Nat → Nat) : Prop :=
  ∀ p, p < c.n * c.n → w p ∈ (b.getT p).candidates

/-- The board-independent part of being a valid completion: symbols
everywhere, each exactly once per group. -/
def ValidW (c : Cfg) (w : Nat → Nat) : Prop :=
  (∀ p, p < c.n * c.n → w p ∈ c.choices) ∧
    (∀ g ∈ c.groups, ∀ v ∈ c.choices, (g.map w).count v = 1)

theorem two_le_countP {α : Type} (P : α → Bool) :
    ∀ {l : List α} {a b : α}, a ∈ l → b ∈ l → a ≠ b → P a = true → P b = true →
      2 ≤ l.countP P := by
  intro l
  induction l with
  | nil => intro a b ha _ _ _ _; exact absurd ha (by simp)
  | cons x xs ih =>
    intro a b ha hb hab hPa hPb
    rw [List.countP_cons]
    rcases List.mem_cons.mp ha with rfl | ha'
    · have hb' : b ∈ xs := by
        rcases List.mem_cons.mp hb with rfl | hb'
        · exact absurd rfl hab
        · exact hb'
      have h1 : 0 < xs.countP P := List.countP_pos_iff.mpr ⟨b, hb', hPb⟩
      rw [if_pos hPa]
      omega
    · rcases List.mem_cons.mp hb with rfl | hb'
      · have h1 : 0 < xs.countP P := List.countP_pos_iff.mpr ⟨a, ha', hPa⟩
        rw [if_pos hPb]
        omega
      · have := ih ha' hb' hab hPa hPb
        split <;> omega

theorem exists_two_of_two_le_countP {α : Type} (P : α → Bool) :
    ∀ {l : List α}, l.Nodup → 2 ≤ l.countP P →
      ∃ a ∈ l, ∃ b ∈ l, a ≠ b ∧ P a = true ∧ P b = true := by
  intro l
  induction l with
  | nil => intro _ h; simp at h
  | cons x xs ih =>
    intro hnd h
    rw [List.countP_cons] at h
    by_cases hPx : P x = true
    · rw [if_pos hPx] at h
      have h1 : 0 < xs.countP P := by omega
      obtain ⟨b, hb, hPb⟩ := List.countP_pos_iff.mp h1
      exact ⟨x, by simp, b, by simp [hb], fun habs => (List.nodup_cons.mp hnd).1 (habs ▸ hb),
        hPx, hPb⟩
    · rw [if_neg hPx] at h
      obtain ⟨a, ha, b, hb, hab, hPa, hPb⟩ := ih (List.nodup_cons.mp hnd).2 (by omega)
      exact ⟨a, by simp [ha], b, by simp [hb], hab, hPa, hPb⟩

/-- Two distinct positions of a group carrying the same completion symbol
contradict the one-per-group discipline. -/
theorem validW_distinct {c : Cfg} (hw : ValidW c w) {g : List Nat} (hg : g ∈ c.groups)
    {p q : Nat} (hpg : p ∈ g) (hqg : q ∈ g) (hpq : p ≠ q) (heq : w p = w q) : False := by
  have hvp : w p ∈ c.choices := hw.1 p (groups_sub hg p hpg)
  have hc := hw.2 g hg (w p) hvp
  rw [List.count_eq_countP, List.countP_map] at hc
  simp only [Function.comp_def] at hc
  have h2 : 2 ≤ g.countP (fun x => w x == w p) := by
    apply two_le_countP _ hpg hqg hpq
    · simp
    · simp [heq]
  omega

theorem agrees_of_admits {c : Cfg} {b : Board} {w : Nat → Nat} (hOK : Board.OK c b)
    (hadm : Admits c b w) :
    ∀ p, p < c.n * c.n → (b.getT p).value ≠ c.unknown → (b.getT p).value = w p := by
  intro p hp hk
  have hOKp := hOK.getTOK (p := p) (by rw [hOK.1]; exact hp)
  rcases hOKp.1 with hkc | hunk
  · have hc := hOKp.2.2 hkc
    have hwp := hadm p hp
    rw [hc] at hwp
    simp at hwp
    exact hwp.symm
  · exact absurd hunk hk

/-- A grid admitting a valid completion has no duplicate known value in any
group. -/
theorem consistent_of_admits {c : Cfg} (hWF : c.WF) {b : Board} {w : Nat → Nat}
    (hOK : Board.OK c b) (hadm : Admits c b w) (hw : ValidW c w) :
    b.is_consistent c = true := by
  rw [is_consistent_iff]
  intro g hg
  rw [List.nodup_iff_count_le_one]
  intro v
  by_cases hvu : v = c.unknown
  · subst hvu
    have : ((g.map (fun p => (b.getT p).value)).filter
        (fun x => decide (x ≠ c.unknown))).count c.unknown = 0 := by
      rw [List.count_eq_zero]
      intro habs
      have := List.of_mem_filter habs
      simp at this
    omega
  · rw [List.count_filter (by simpa using hvu)]
    by_contra hge
    have h2 : 2 ≤ (g.map (fun p => (b.getT p).value)).count v := by omega
    rw [List.count_eq_countP, List.countP_map] at h2
    simp only [Function.comp_def] at h2
    obtain ⟨p, hpg, q, hqg, hpq, hPp, hPq⟩ :=
      exists_two_of_two_le_countP _ (groups_nodup hWF hg) h2
    have hvp : (b.getT p).value = v := by simpa using hPp
    have hvq : (b.getT q).value = v := by simpa using hPq
    have hwp : (b.getT p).value = w p :=
      agrees_of_admits hOK hadm p (groups_sub hg p hpg) (by rw [hvp]; exact hvu)
    have hwq : (b.getT q).value = w q :=
      agrees_of_admits hOK hadm q (groups_sub hg q hqg) (by rw [hvq]; exact hvu)
    exact validW_distinct hw hg hpg hqg hpq (by rw [← hwp, ← hwq, hvp, hvq])

/-- The naked-single inner fold keeps the completion admitted: no used value
of the group can be the completion's symbol of a still-UNKNOWN tile. -/
theorem nakedFold_admits {c : Cfg} (hWF : c.WF) {w : Nat → Nat} (hw : ValidW c w)
    {g : List Nat} (hg : g ∈ c.groups) {B0 : Board} (hOK0 : Board.OK c B0)
    (hadm0 : Admits c B0 w) :
    ∀ (l : List Nat), (∀ p ∈ l, p ∈ g) →
      ∀ (ab : Board × Bool), Board.OK c ab.1 → Admits c ab.1 w →
        Board.refines c B0 ab.1 →
        Board.OK c (l.foldl (Board.nakedStep c (Board.usedValues c B0 g)) ab).1 ∧
          Admits c (l.foldl (Board.nakedStep c (Board.usedValues c B0 g)) ab).1 w ∧
          Board.refines c B0 (l.foldl (Board.nakedStep c (Board.usedValues c B0 g)) ab).1
  | [], _, ab, hOK, hadm, href => ⟨hOK, hadm, href⟩
  | p :: l, hl, ab, hOK, hadm, href => by
    rw [List.foldl_cons]
    have hpg : p ∈ g := hl p (by simp)
    have hpn : p < c.n * c.n := groups_sub hg p hpg
    have hplt : p < ab.1.tiles.length := by rw [hOK.1]; exact hpn
    have hOK1 : Board.OK c (Board.nakedStep c (Board.usedValues c B0 g) ab p).1 :=
      OK_nakedStep hWF _ hOK p
    have href1 : Board.refines c B0 (Board.nakedStep c (Board.usedValues c B0 g) ab p).1 :=
      refines_trans href (refines_nakedStep hOK p)
    have hadm1 : Admits c (Board.nakedStep c (Board.usedValues c B0 g) ab p).1 w := by
      unfold Board.nakedStep
      by_cases hv : (ab.1.getT p).value = c.unknown
      · simp only [hv, if_true]
        intro q hq
        by_cases hqp : q = p
        · subst hqp
          rw [getT_setT_same _ hplt]
          have hwnotused : w q ∉ Board.usedValues c B0 g := by
            intro habs
            simp only [Board.usedValues, List.mem_filter, List.mem_map] at habs
            obtain ⟨⟨q', hq'g, hq'v⟩, hne⟩ := habs
            simp only [decide_eq_true_eq] at hne
            have hq'n : q' < c.n * c.n := groups_sub hg q' hq'g
            have hq'kn : (B0.getT q').value ≠ c.unknown := by rw [hq'v]; exact hne
            have hagr := agrees_of_admits hOK0 hadm0 q' hq'n hq'kn
            have hqunk0 : (B0.getT q).value = c.unknown := by
              by_contra hk0
              have := href.1 q hk0
              rw [this] at hv
              exact hk0 hv
            have hqq' : q ≠ q' := by
              intro habs2
              rw [habs2] at hqunk0
              exact hq'kn hqunk0
            exact validW_distinct hw hg hq'g (hl q (by simp)) (Ne.symm hqq')
              (by rw [← hagr, hq'v])
          have hwdiff : w q ∈ (ab.1.getT q).diff (Board.usedValues c B0 g) := by
            rw [Tile.diff, List.mem_filter]
            exact ⟨hadm q hq, by simpa using hwnotused⟩
          set t := ab.1.getT q with ht
          by_cases heq : t.diff (Board.usedValues c B0 g) = t.candidates
          · rw [remove_candidates_of_eq heq]
            exact hadm q hq
          rcases hd : t.diff (Board.usedValues c B0 g) with _ | ⟨v, vs⟩
          · rw [hd] at hwdiff
            exact absurd hwdiff (by simp)
          rcases vs with _ | ⟨v', vs'⟩
          · rw [remove_candidates_of_single hd heq]
            rw [hd] at hwdiff
            simp only [List.mem_singleton] at hwdiff
            rw [← hwdiff, set_value_of_choice (hw.1 q hq)]
            simp
          · rw [remove_candidates_of_big hd heq, ← hd]
            exact hwdiff
        · rw [getT_setT_ne _ hqp]
          exact hadm q hq
      · simp only [hv, if_false]
        exact hadm
    exact nakedFold_admits hWF hw hg hOK0 hadm0 l (fun q hq => hl q (by simp [hq])) _
      hOK1 hadm1 href1

theorem naked_single_admits {c : Cfg} (hWF : c.WF) {w : Nat → Nat} (hw : ValidW c w)
    {b : Board} (hOK : Board.OK c b) (hadm : Admits c b w) :
    Admits c (b.naked_single c).1 w := by
  have h := foldl_preserves_ab (fun x => Board.OK c x ∧ Admits c x w)
    (Board.nakedGroup c) c.groups ?_ (b, false) ⟨hOK, hadm⟩
  · exact h.2
  · intro ab g hgmem hP
    unfold Board.nakedGroup
    have := nakedFold_admits hWF hw hgmem hP.1 hP.2 g (fun q hq => hq) ab hP.1 hP.2
      (refines_rfl c ab.1)
    exact ⟨this.1, this.2.1⟩

/-- The hidden-single inner fold keeps the completion admitted: a forced
tile is the unique admitter of its symbol, hence carries the completion's
symbol there. -/
theorem hiddenFold_admits {c : Cfg} (hWF : c.WF) {w : Nat → Nat} (hw : ValidW c w)
    {g : List Nat} (hg : g ∈ c.groups) :
    ∀ (l : List Nat), (∀ v ∈ l, v ∈ c.choices) →
      ∀ (ab : Board × Bool), Board.OK c ab.1 → Admits c ab.1 w →
        Board.OK c (l.foldl (Board.hiddenStep c g) ab).1 ∧
          Admits c (l.foldl (Board.hiddenStep c g) ab).1 w
  | [], _, ab, hOK, hadm => ⟨hOK, hadm⟩
  | v :: l, hl, ab, hOK, hadm => by
    rw [List.foldl_cons]
    have hvc : v ∈ c.choices := hl v (by simp)
    have hOK1 : Board.OK c (Board.hiddenStep c g ab v).1 := OK_hiddenStep hWF g hOK v
    have hadm1 : Admits c (Board.hiddenStep c g ab v).1 w := by
      unfold Board.hiddenStep
      split
      case h_1 p heq =>
        have hpfil : p ∈ g.filter (fun p => decide (v ∈ (ab.1.getT p).candidates)) := by
          rw [heq]; simp
        have hpg : p ∈ g := List.mem_of_mem_filter hpfil
        have hpn : p < c.n * c.n := groups_sub hg p hpg
        have hplt : p < ab.1.tiles.length := by rw [hOK.1]; exact hpn
        have hwp : w p = v := by
          have hcv := hw.2 g hg v hvc
          have hpos : 0 < (g.map w).count v := by omega
          rw [List.count_pos_iff] at hpos
          simp only [List.mem_map] at hpos
          obtain ⟨q, hqg, hqv⟩ := hpos
          have hqn : q < c.n * c.n := groups_sub hg q hqg
          have hqfil : q ∈ g.filter (fun p => decide (v ∈ (ab.1.getT p).candidates)) := by
            rw [List.mem_filter]
            exact ⟨hqg, by simpa using hqv ▸ hadm q hqn⟩
          rw [heq, List.mem_singleton] at hqfil
          rw [← hqfil]
          exact hqv
        intro q hq
        by_cases hqp : q = p
        · subst hqp
          rw [getT_setT_same _ hplt, set_value_of_choice hvc]
          simp [hwp]
        · rw [getT_setT_ne _ hqp]
          exact hadm q hq
      case h_2 => exact hadm
    exact hiddenFold_admits hWF hw hg l (fun u hu => hl u (by simp [hu])) _ hOK1 hadm1

theorem hidden_single_admits {c : Cfg} (hWF : c.WF) {w : Nat → Nat} (hw : ValidW c w)
    {b : Board} (hOK : Board.OK c b) (hadm : Admits c b w) :
    Admits c (b.hidden_single c).1 w := by
  have h := foldl_preserves_ab (fun x => Board.OK c x ∧ Admits c x w)
    (Board.hiddenGroup c) c.groups ?_ (b, false) ⟨hOK, hadm⟩
  · exact h.2
  · intro ab g hgmem hP
    unfold Board.hiddenGroup
    exact hiddenFold_admits hWF hw hgmem (Board.leftovers c ab.1 g)
      (fun u hu => List.mem_of_mem_filter hu) ab hP.1 hP.2

theorem propagateF_admits {c : Cfg} (hWF : c.WF) {w : Nat → Nat} (hw : ValidW c w) :
    ∀ (f : Nat) {b : Board}, Board.OK c b → Admits c b w →
      Admits c (Board.propagateF c f b) w
  | 0, _, _, hadm => hadm
  | f + 1, b, hOK, hadm => by
    simp only [Board.propagateF]
    have hOK1 := OK_naked_single hWF hOK
    have hadm1 := naked_single_admits hWF hw hOK hadm
    have hOK2 := OK_hidden_single hWF hOK1
    have hadm2 := hidden_single_admits hWF hw hOK1 hadm1
    by_cases hpr : (b.naked_single c).2 = true
    · simp only [hpr, if_true]
      exact propagateF_admits hWF hw f hOK2 hadm2
    · simp [hpr]
      exact hadm2

theorem propagate_admits {c : Cfg} (hWF : c.WF) {w : Nat → Nat} (hw : ValidW c w)
    {b : Board} (hOK : Board.OK c b) (hadm : Admits c b w) :
    Admits c (b.propagate c) w :=
  propagateF_admits hWF hw _ hOK hadm

/-- Restoring the snapshot of `b1` re-establishes admittance: known tiles
carry the completion's symbols and UNKNOWN tiles regain full candidates. -/
theorem admits_restore {c : Cfg} (hWF : c.WF) {w : Nat → Nat} {b1 x : Board}
    (hOK1 : Board.OK c b1) (hadm1 : Admits c b1 w)
    (hch : ∀ p, p < c.n * c.n → w p ∈ c.choices)
    (hxlen : x.tiles.length = c.n * c.n) :
    Admits c (x.set_tiles c (b1.as_list c)) w := by
  intro p hp
  obtain ⟨hr, hk, hrc⟩ := pos_decomp (c := c) hp
  rw [set_tiles_getT (b := x) (b1.as_list c) hxlen hp, as_list_getD b1 hr hk, hrc]
  have hplt : p < b1.tiles.length := by rw [hOK1.1]; exact hp
  rcases (hOK1.getTOK hplt).1 with hkc | hunk
  · rw [set_value_of_choice hkc]
    have := agrees_of_admits hOK1 hadm1 p hp (by
      intro habs
      exact hWF.unk_not_choice (habs ▸ hkc))
    simp [← this]
  · rw [hunk, set_value_of_junk hWF.unk_not_choice]
    exact hch p hp

/-- The guess loop succeeds once it reaches the completion's symbol for the
branching tile: earlier guesses either succeed outright or fail and are
rolled back to the snapshot, which still admits the completion. -/
theorem guessLoop_success {c : Cfg} (hWF : c.WF) {w : Nat → Nat} (hw : ValidW c w)
    {f : Nat}
    (IH : ∀ {x : Board}, x.unknowns c < f → Board.OK c x → Admits c x w →
      (Board.solveF c f x).1 = true)
    {b1 : Board} (hOK1 : Board.OK c b1) (hadm1 : Admits c b1 w)
    (hu1 : b1.unknowns c ≤ f) {p : Nat} (hp : p < c.n * c.n)
    (hpunk1 : (b1.getT p).value = c.unknown) :
    ∀ (l : List Nat), w p ∈ l →
      ∀ (bd : Board), Board.OK c bd → Admits c bd w →
        bd.unknowns c = b1.unknowns c → (bd.getT p).value = c.unknown →
        (Board.guessLoop c (Board.solveF c f) (b1.as_list c) p l bd).1 = true
  | [], hwl, _, _, _, _, _ => absurd hwl (by simp)
  | v :: l, hwl, bd, hOKbd, hadmbd, hubd, hunkbd => by
    simp only [Board.guessLoop]
    have hplt : p < bd.tiles.length := by rw [hOKbd.1]; exact hp
    by_cases hres : (Board.solveF c f (bd.setT p (Tile.set_value c v))).1 = true
    · simp [hres]
    · simp only [hres, if_false]
      have hvne : v ≠ w p := by
        intro habs
        apply hres
        have hOKx : Board.OK c (bd.setT p (Tile.set_value c v)) :=
          hOKbd.setTOK (tileOK_set_value hWF v)
        have hadmx : Admits c (bd.setT p (Tile.set_value c v)) w := by
          intro q hq
          by_cases hqp : q = p
          · subst hqp
            rw [getT_setT_same _ hplt, habs, set_value_of_choice (hw.1 q hq)]
            simp
          · rw [getT_setT_ne _ hqp]
            exact hadmbd q hq
        have hult : (bd.setT p (Tile.set_value c v)).unknowns c < f := by
          have := unknowns_setT_lt (t := Tile.set_value c v) hplt hunkbd
            (by rw [habs]; exact set_value_known hWF (hw.1 p hp))
          omega
        exact IH hult hOKx hadmx
      have hwtail : w p ∈ l := by
        rcases List.mem_cons.mp hwl with h | h
        · exact absurd h.symm hvne
        · exact h
      have hOKres : Board.OK c (Board.solveF c f (bd.setT p (Tile.set_value c v))).2 :=
        OK_solveF hWF f (hOKbd.setTOK (tileOK_set_value hWF v))
      have hOKrest : Board.OK c
          ((Board.solveF c f (bd.setT p (Tile.set_value c v))).2.set_tiles c
            (b1.as_list c)) :=
        OK_set_tiles hWF hOKres _
      have hvals := set_tiles_as_list_values hWF hOK1 hOKres.1
      have hadmrest := admits_restore hWF hOK1 hadm1 hw.1 hOKres.1
      have hurest : ((Board.solveF c f (bd.setT p (Tile.set_value c v))).2.set_tiles c
          (b1.as_list c)).unknowns c = b1.unknowns c := by
        refine unknowns_congr_of_values ?_ ?_
        · rw [hOKrest.1, hOK1.1]
        · intro q hq
          rw [hOKrest.1] at hq
          exact hvals q hq
      have hunkrest : (((Board.solveF c f (bd.setT p (Tile.set_value c v))).2.set_tiles c
          (b1.as_list c)).getT p).value = c.unknown := by
        rw [hvals p hp]
        exact hpunk1
      exact guessLoop_success hWF hw IH hOK1 hadm1 hu1 hp hpunk1 l hwtail _
        hOKrest hadmrest hurest hunkrest

/-- The solver succeeds on every well-formed board that admits a valid
completion, whenever the fuel exceeds the number of UNKNOWN tiles: the
propagated grid still admits the completion (hence is consistent), and if
it is not complete the guess loop eventually tries the completion's symbol
on the branching tile. -/
theorem solveF_success {c : Cfg} (hWF : c.WF) {w : Nat → Nat} (hw : ValidW c w) :
    ∀ (f : Nat) {b : Board}, b.unknowns c < f → Board.OK c b → Admits c b w →
      (Board.solveF c f b).1 = true
  | 0, _, hu, _, _ => absurd hu (by omega)
  | f + 1, b, hu, hOK, hadm => by
    simp only [Board.solveF]
    have hOK1 : Board.OK c (b.propagate c) := OK_propagate hWF hOK
    have hadm1 : Admits c (b.propagate c) w := propagate_admits hWF hw hOK hadm
    have hu1 : (b.propagate c).unknowns c ≤ b.unknowns c := unknowns_propagate_le hWF hOK
    by_cases hcomp : (b.propagate c).is_complete c = true
    · simp [hcomp]
    · have hcons : (b.propagate c).is_consistent c = true :=
        consistent_of_admits hWF hOK1 hadm1 hw
      simp only [hcomp, if_false, Bool.not_eq_true]
      simp only [hcons, Bool.not_true, if_false, Bool.false_eq_true]
      cases hmin : (b.propagate c).min_choice_tile c with
      | none =>
        rw [min_choice_tile_none_iff] at hmin
        exact absurd hmin hcomp
      | some p =>
        simp only [hmin]
        obtain ⟨hpn, hpunk⟩ := min_choice_tile_some hmin
        exact guessLoop_success hWF hw
          (fun {x} hx hOKx hadmx => solveF_success hWF hw f hx hOKx hadmx)
          hOK1 hadm1 (by omega) hpn hpunk _ (hadm1 p hpn) _
          hOK1 hadm1 rfl hpunk

/-- C2: completeness of the solver.  For every loaded board (an initial
board filled in through `set_tiles`) that has at least one valid completion
— an assignment of CHOICES symbols to all positions, each exactly once per
group, agreeing with the board's known values — `solve()` returns True. -/
theorem C2_completeness (c : Cfg) (hWF : c.WF) (vals : List (List Nat)) (w : Nat → Nat)
    (hcomp : Completion c ((Board.init c).set_tiles c vals) w) :
    (((Board.init c).set_tiles c vals).solve c).1 = true := by
  have hOK : Board.OK c ((Board.init c).set_tiles c vals) :=
    OK_set_tiles hWF (OK_init hWF) vals
  have hw : ValidW c w := ⟨hcomp.1, hcomp.2.2⟩
  have hadm : Admits c ((Board.init c).set_tiles c vals) w := by
    intro p hp
    have hget := set_tiles_getT (b := Board.init c) vals (OK_init hWF).1 hp
    by_cases hvc : (vals.getD (p / c.n) []).getD (p % c.n) c.unknown ∈ c.choices
    · have hval : (((Board.init c).set_tiles c vals).getT p).value
          = (vals.getD (p / c.n) []).getD (p % c.n) c.unknown := by
        rw [hget, set_value_of_choice hvc]
      have hkn : (((Board.init c).set_tiles c vals).getT p).value ≠ c.unknown := by
        rw [hval]
        intro habs
        exact hWF.unk_not_choice (habs ▸ hvc)
      have hagr := hcomp.2.1 p hp hkn
      rw [hget, set_value_of_choice hvc]
      simp only [List.mem_singleton]
      rw [hagr, hval]
    · rw [hget, set_value_of_junk hvc]
      exact hcomp.1 p hp
  simp only [Board.solve]
  exact solveF_success hWF hw _ (Nat.lt_succ_self _) hOK hadm

theorem C2_witness :
    Completion cfg1 ((Board.init cfg1).set_tiles cfg1 [[0]]) (fun _ => 1) ∧
      (((Board.init cfg1).set_tiles cfg1 [[0]]).solve cfg1).1 = true := by
  have hc : Completion cfg1 ((Board.init cfg1).set_tiles cfg1 [[0]]) (fun _ => 1) := by
    refine ⟨?_, ?_, ?_⟩ <;> decide
  exact ⟨hc, C2_completeness cfg1 cfg1_WF [[0]] (fun _ => 1) hc⟩

/-! ### C10: characterization of the min_choice_tile scan -/

/-- The tile enumeration order of the `min_choice_tile` scan: all groups in
order (blocks, then rows, then columns), concatenated. -/
def Board.scanOrder (c : Cfg) : List Nat := c.groups.flatten

/-- Index `i` of the scan list `l` is a strict improvement point: the tile
there is UNKNOWN and its candidate count is strictly smaller than that of
every UNKNOWN tile at an earlier index. -/
def Board.mctSat (c : Cfg) (b : Board) (l : List Nat) (i : Nat) : Prop :=
  i < l.length ∧ (b.getT (l.getD i 0)).value = c.unknown ∧
    ∀ j < i, (b.getT (l.getD j 0)).value = c.unknown →
      (b.getT (l.getD i 0)).candidates.length < (b.getT (l.getD j 0)).candidates.length

/-- Invariant of the `min_choice_tile` scan after processing the prefix
`pre`: either no UNKNOWN tile was seen and the running minimum is still
`none`, or the running minimum sits at the LAST strict improvement point so
far and its candidate count is minimal among the UNKNOWN tiles seen. -/
def MctInv (c : Cfg) (b : Board) (pre : List Nat) (acc : Option Nat) : Prop :=
  (acc = none ∧ ∀ q ∈ pre, (b.getT q).value ≠ c.unknown) ∨
    (∃ i, i < pre.length ∧ acc = some (pre.getD i 0) ∧ Board.mctSat c b pre i ∧
      (∀ j, Board.mctSat c b pre j → j ≤ i) ∧
      (∀ j < pre.length, (b.getT (pre.getD j 0)).value = c.unknown →
        (b.getT (pre.getD i 0)).candidates.length
          ≤ (b.getT (pre.getD j 0)).candidates.length))

theorem getD_mem_of_lt {l : List Nat} {n : Nat} (h : n < l.length) : l.getD n 0 ∈ l := by
  rw [List.getD_eq_getElem l 0 h]
  exact List.getElem_mem h

theorem mctSat_append {c : Cfg} {b : Board} {pre : List Nat} (x : Nat) {i : Nat}
    (hi : i < pre.length) :
    Board.mctSat c b (pre ++ [x]) i ↔ Board.mctSat c b pre i := by
  unfold Board.mctSat
  have hgi : (pre ++ [x]).getD i 0 = pre.getD i 0 := List.getD_append _ _ _ _ hi
  constructor
  · rintro ⟨_, hunk, hlt⟩
    rw [hgi] at hunk
    refine ⟨hi, hunk, fun j hj hjunk => ?_⟩
    have hgj : (pre ++ [x]).getD j 0 = pre.getD j 0 :=
      List.getD_append _ _ _ _ (lt_trans hj hi)
    have := hlt j hj (by rw [hgj]; exact hjunk)
    rw [hgi, hgj] at this
    exact this
  · rintro ⟨_, hunk, hlt⟩
    refine ⟨by rw [List.length_append]; omega, by rw [hgi]; exact hunk,
      fun j hj hjunk => ?_⟩
    have hgj : (pre ++ [x]).getD j 0 = pre.getD j 0 :=
      List.getD_append _ _ _ _ (lt_trans hj hi)
    rw [hgi, hgj]
    rw [hgj] at hjunk
    exact hlt j hj hjunk

/-- One scan step preserves the invariant. -/
theorem mctStep_inv (c : Cfg) (b : Board) (pre : List Nat) (acc : Option Nat) (x : Nat)
    (h : MctInv c b pre acc) : MctInv c b (pre ++ [x]) (Board.mctStep c b acc x) := by
  have hlen : (pre ++ [x]).length = pre.length + 1 := by simp
  have hgx : (pre ++ [x]).getD pre.length 0 = x := by
    rw [List.getD_append_right]
    · simp
    · exact le_refl _
  by_cases hx : (b.getT x).value = c.unknown
  · rcases h with ⟨hacc, hall⟩ | ⟨i, hi, hacc, hsat, hlast, hmin⟩
    · subst hacc
      rw [mctStep_none hx]
      refine Or.inr ⟨pre.length, by rw [hlen]; omega, by rw [hgx], ?_, ?_, ?_⟩
      · refine ⟨by rw [hlen]; omega, by rw [hgx]; exact hx, fun j hj hjunk => ?_⟩
        exfalso
        have hgj : (pre ++ [x]).getD j 0 = pre.getD j 0 := List.getD_append _ _ _ _ hj
        rw [hgj] at hjunk
        exact hall _ (getD_mem_of_lt hj) hjunk
      · intro j hsatj
        have hjlen := hsatj.1
        rw [hlen] at hjlen
        omega
      · intro j hj hjunk
        rw [hlen] at hj
        rcases Nat.lt_or_ge j pre.length with hjlt | hjge
        · exfalso
          have hgj : (pre ++ [x]).getD j 0 = pre.getD j 0 := List.getD_append _ _ _ _ hjlt
          rw [hgj] at hjunk
          exact hall _ (getD_mem_of_lt hjlt) hjunk
        · have hj' : j = pre.length := by omega
          rw [hj']
    · subst hacc
      rw [mctStep_some hx]
      by_cases hcmp : (b.getT x).candidates.length
          < (b.getT (pre.getD i 0)).candidates.length
      · rw [if_pos hcmp]
        refine Or.inr ⟨pre.length, by rw [hlen]; omega, by rw [hgx], ?_, ?_, ?_⟩
        · refine ⟨by rw [hlen]; omega, by rw [hgx]; exact hx, fun j hj hjunk => ?_⟩
          have hgj : (pre ++ [x]).getD j 0 = pre.getD j 0 := List.getD_append _ _ _ _ hj
          rw [hgx, hgj]
          rw [hgj] at hjunk
          exact lt_of_lt_of_le hcmp (hmin j hj hjunk)
        · intro j hsatj
          have hjlen := hsatj.1
          rw [hlen] at hjlen
          omega
        · intro j hj hjunk
          rw [hlen] at hj
          rcases Nat.lt_or_ge j pre.length with hjlt | hjge
          · have hgj : (pre ++ [x]).getD j 0 = pre.getD j 0 :=
              List.getD_append _ _ _ _ hjlt
            rw [hgx, hgj]
            rw [hgj] at hjunk
            exact le_of_lt (lt_of_lt_of_le hcmp (hmin j hjlt hjunk))
          · have hj' : j = pre.length := by omega
            rw [hj', hgx]
      · rw [if_neg hcmp]
        have hgi : (pre ++ [x]).getD i 0 = pre.getD i 0 := List.getD_append _ _ _ _ hi
        refine Or.inr ⟨i, by rw [hlen]; omega, by rw [hgi],
          (mctSat_append x hi).mpr hsat, ?_, ?_⟩
        · intro j hsatj
          have hjlen := hsatj.1
          rw [hlen] at hjlen
          rcases Nat.lt_or_ge j pre.length with hjlt | hjge
          · exact hlast j ((mctSat_append x hjlt).mp hsatj)
          · exfalso
            have hj' : j = pre.length := by omega
            subst hj'
            obtain ⟨_, _, hltj⟩ := hsatj
            have hgi' : (pre ++ [x]).getD i 0 = pre.getD i 0 :=
              List.getD_append _ _ _ _ hi
            have := hltj i hi (by rw [hgi']; exact hsat.2.1)
            rw [hgx, hgi'] at this
            exact hcmp this
        · intro j hj hjunk
          rw [hlen] at hj
          rcases Nat.lt_or_ge j pre.length with hjlt | hjge
          · have hgj : (pre ++ [x]).getD j 0 = pre.getD j 0 :=
              List.getD_append _ _ _ _ hjlt
            rw [hgi, hgj]
            rw [hgj] at hjunk
            exact hmin j hjlt hjunk
          · have hj' : j = pre.length := by omega
            subst hj'
            rw [hgi, hgx]
            omega
  · rw [mctStep_known acc hx]
    rcases h with ⟨hacc, hall⟩ | ⟨i, hi, hacc, hsat, hlast, hmin⟩
    · refine Or.inl ⟨hacc, fun q hq => ?_⟩
      rcases List.mem_append.mp hq with hq | hq
      · exact hall q hq
      · simp only [List.mem_singleton] at hq
        rw [hq]
        exact hx
    · have hgi : (pre ++ [x]).getD i 0 = pre.getD i 0 := List.getD_append _ _ _ _ hi
      refine Or.inr ⟨i, by rw [hlen]; omega, by rw [hgi]; exact hacc,
        (mctSat_append x hi).mpr hsat, ?_, ?_⟩
      · intro j hsatj
        have hjlen := hsatj.1
        rw [hlen] at hjlen
        rcases Nat.lt_or_ge j pre.length with hjlt | hjge
        · exact hlast j ((mctSat_append x hjlt).mp hsatj)
        · exfalso
          have hj' : j = pre.length := by omega
          subst hj'
          obtain ⟨_, hunkj, _⟩ := hsatj
          rw [hgx] at hunkj
          exact hx hunkj
      · intro j hj hjunk
        rw [hlen] at hj
        rcases Nat.lt_or_ge j pre.length with hjlt | hjge
        · have hgj : (pre ++ [x]).getD j 0 = pre.getD j 0 := List.getD_append _ _ _ _ hjlt
          rw [hgi, hgj]
          rw [hgj] at hjunk
          exact hmin j hjlt hjunk
        · exfalso
          have hj' : j = pre.length := by omega
          subst hj'
          rw [hgx] at hjunk
          exact hx hjunk

theorem mctFold_inv (c : Cfg) (b : Board) :
    ∀ (l pre : List Nat) (acc : Option Nat), MctInv c b pre acc →
      MctInv c b (pre ++ l) (l.foldl (Board.mctStep c b) acc)
  | [], pre, acc, h => by simpa using h
  | x :: l, pre, acc, h => by
    rw [List.foldl_cons, List.append_cons]
    exact mctFold_inv c b l (pre ++ [x]) _ (mctStep_inv c b pre acc x h)

/-- A loaded board whose only known value forces nothing at the head of the
scan: the down-stream tile 3 shares a column with the known 1 at tile 11. -/
def b10 : Board :=
  (((Board.init cfg4).set_tiles cfg4
    [[0, 0, 0, 0], [0, 0, 0, 0], [0, 0, 0, 1], [0, 0, 0, 0]]).naked_single cfg4).1

/-- C10: `min_choice_tile()` on a complete grid returns None rather than
raising; the claim's description of the incomplete case is refuted: the
FIRST tile of the scan whose candidate count is strictly smaller than that
of every UNKNOWN tile encountered earlier is the very first UNKNOWN tile
(tile 0 here, vacuously), yet the scan returns tile 3, which occurs only
strictly later; the running strict minimum keeps the LAST such tile
(`C10_min_choice_tile`). -/
theorem C10_counterexample :
    b10.min_choice_tile cfg4 = some 3 ∧
      (Board.scanOrder cfg4).getD 0 0 = 0 ∧
      Board.mctSat cfg4 b10 (Board.scanOrder cfg4) 0 ∧
      (∀ i, i < (Board.scanOrder cfg4).length →
        (Board.scanOrder cfg4).getD i 0 = 3 → 0 < i) := by
  refine ⟨by decide, by decide, ?_, by decide⟩
  unfold Board.mctSat
  decide

/-- C10 (corrected): on a complete grid `min_choice_tile()` returns None
(no exception); on an incomplete grid it returns the tile at the LAST index
of the scan order (blocks, then rows, then columns, groups concatenated)
whose candidate count is strictly smaller than that of every UNKNOWN tile
at an earlier index. -/
theorem C10_min_choice_tile (c : Cfg) (b : Board) :
    (b.is_complete c = true → b.min_choice_tile c = none) ∧
      (b.is_complete c = false →
        ∃ i, i < (Board.scanOrder c).length ∧
          b.min_choice_tile c = some ((Board.scanOrder c).getD i 0) ∧
          Board.mctSat c b (Board.scanOrder c) i ∧
          ∀ j, Board.mctSat c b (Board.scanOrder c) j → j ≤ i) := by
  have hinv := mctFold_inv c b (Board.scanOrder c) [] none (Or.inl ⟨rfl, by simp⟩)
  rw [List.nil_append] at hinv
  constructor
  · intro hcomp
    exact min_choice_tile_none_iff.mpr hcomp
  · intro hcomp
    rcases hinv with ⟨_, hall⟩ | ⟨i, hi, hacc, hsat, hlast, _⟩
    · exfalso
      have hc : b.is_complete c = true := by
        rw [is_complete_iff]
        intro g hg q hq
        exact hall q (List.mem_flatten.mpr ⟨g, hg, hq⟩)
      rw [hc] at hcomp
      exact Bool.noConfusion hcomp
    · refine ⟨i, hi, ?_, hsat, hlast⟩
      rw [min_choice_tile_eq_foldl]
      exact hacc

theorem C10_witness : bOnes.min_choice_tile cfg4 = none :=
  (C10_min_choice_tile cfg4 bOnes).1 (by decide)

end Sdk
